import Mathlib

/-!
Verification development for the localbooru repository.

The definitions below are shallow embeddings of the Python source files
`src/localbooru/tags.py`, `src/localbooru/search.py`,
`src/localbooru/database.py` and `src/localbooru/auto_tagging.py`.
Strings are modelled as `List Char` / `String`, SQLite tables as Lean lists
of row structures, and Python floats as exact rationals `ℚ`.
-/

set_option maxRecDepth 4000

/-! ### Character classes and Python string primitives (tags.py helpers) -/

/-- Python whitespace (`str.strip()` / regex `\s`), restricted to ASCII.
Python also treats some further Unicode code points as whitespace; every such
character lies outside `[a-z0-9_:-]` and is therefore replaced by an
underscore by `normalize_tag` anyway, so the restriction does not affect the
properties proved below. -/
def isPyWs (c : Char) : Bool :=
  c = ' ' || c = '\t' || c = '\n' || c = '\r' || c = '\x0b' || c = '\x0c'

/-- Python `str.strip()`-style stripping: drop `p`-characters from both ends. -/
def pyStrip (p : Char → Bool) (l : List Char) : List Char :=
  (l.dropWhile p).rdropWhile p

/-- Python `str.strip()` with no argument: strip whitespace from both ends. -/
def pyStripWs (l : List Char) : List Char :=
  pyStrip isPyWs l

/-- Python `str.lower()`, restricted to ASCII (the full Unicode case mapping
differs only on characters that `normalize_tag` subsequently replaces by an
underscore). -/
def asciiLower (c : Char) : Char :=
  if 65 ≤ c.toNat ∧ c.toNat ≤ 90 then Char.ofNat (c.toNat + 32) else c

/-- One pass of `re.sub(p+, r, s)`: replace every maximal run of characters
satisfying `p` by the single character `r`.  The flag records whether the
previous character belonged to a run. -/
def collapseRuns (p : Char → Bool) (r : Char) : List Char → Bool → List Char
  | [], _ => []
  | c :: cs, inRun =>
    if p c then
      if inRun then collapseRuns p r cs true
      else r :: collapseRuns p r cs true
    else c :: collapseRuns p r cs false

/-- The character class `[a-z0-9_:-]` of `_tag_normalize_regexes` in tags.py. -/
def isTagChar (c : Char) : Bool :=
  (97 ≤ c.toNat && c.toNat ≤ 122) || (48 ≤ c.toNat && c.toNat ≤ 57) ||
    c = '_' || c = ':' || c = '-'

/-- `value = tag.strip().lower()` (first line of `normalize_tag`). -/
def nstage1 (l : List Char) : List Char :=
  (pyStripWs l).map asciiLower

/-- First substitution of `normalize_tag`: `re.sub(r"\s+", "_", value)`. -/
def nstage2 (l : List Char) : List Char :=
  collapseRuns isPyWs '_' (nstage1 l) false

/-- Second substitution: `re.sub(r"[^a-z0-9_:-]", "_", value)`. -/
def nstage3 (l : List Char) : List Char :=
  (nstage2 l).map fun c => if isTagChar c then c else '_'

/-- Third substitution: `re.sub(r"_+", "_", value)`. -/
def nstage4 (l : List Char) : List Char :=
  collapseRuns (fun c => c = '_') '_' (nstage3 l) false

/-- Final `value.strip("_")` of `normalize_tag`, after the three
substitutions. -/
def normalizeChars (l : List Char) : List Char :=
  pyStrip (fun c => c = '_') (nstage4 l)

/-- `normalize_tag` from tags.py: lowercase, collapse whitespace runs to `_`,
replace characters outside `[a-z0-9_:-]` by `_`, collapse `_` runs, strip
leading/trailing `_`. -/
def normalize_tag (s : String) : String :=
  ⟨normalizeChars s.data⟩

/-- `true` when no two adjacent characters of the list both satisfy `p`
(used to state that `normalize_tag` output has no underscore runs). -/
def noRun (p : Char → Bool) : List Char → Bool
  | [] => true
  | [_] => true
  | a :: b :: t => (!(p a && p b)) && noRun p (b :: t)

/-! ### Prompt parser (tags.py: `split_prompt`, wrapper stripping, weighted
syntax, `_parse_prompt_token`, `parse_prompt`) -/

/-- A parsed tag record (`TagRecord` dataclass in tags.py).  The `source`
field is referenced by database.py, auto_tagging.py and the repository's
tests (passed as an eighth constructor argument), although the dataclass in
tags.py omits it; it is included here with the database default
`'embedded'`. -/
structure TagRecord where
  tag : String
  norm : String
  kind : String
  emphasis : String
  weight : ℚ
  raw : String
  source : String := (r"embedded")
deriving DecidableEq

/-- The character-scanning loop of `split_prompt`: split on commas that occur
outside `{}` / `[]` groups, tracked by nesting-depth counters; every stripped
nonempty piece becomes a token. -/
def splitPromptGo (cs : List Char) (buf : List Char) (brace bracket : Nat) :
    List (List Char) :=
  match cs with
  | [] =>
    let t := pyStripWs buf
    if t = [] then [] else [t]
  | c :: rest =>
    if c = ',' ∧ brace = 0 ∧ bracket = 0 then
      let t := pyStripWs buf
      if t = [] then splitPromptGo rest [] brace bracket
      else t :: splitPromptGo rest [] brace bracket
    else if c = '\x7b' then splitPromptGo rest (buf ++ [c]) (brace + 1) bracket
    else if c = '\x7d' ∧ 0 < brace then
      splitPromptGo rest (buf ++ [c]) (brace - 1) bracket
    else if c = '[' then splitPromptGo rest (buf ++ [c]) brace (bracket + 1)
    else if c = ']' ∧ 0 < bracket then
      splitPromptGo rest (buf ++ [c]) brace (bracket - 1)
    else splitPromptGo rest (buf ++ [c]) brace bracket

/-- `split_prompt` from tags.py. -/
def split_prompt (text : List Char) : List (List Char) :=
  splitPromptGo text [] 0 0

/-- One iteration structure of `_strip_balanced_wrappers`: repeatedly strip
whitespace and remove one balanced `{...}` or `[...]` wrapper enclosing the
whole token, counting strong (`{`) and weak (`[`) wrappers.  The fuel
parameter only bounds the loop: every iteration removes two characters, so
`length + 1` iterations always suffice and the fuel-exhaustion branch is
unreachable from `stripBalanced`. -/
def stripBalancedF : Nat → List Char → Nat → Nat → List Char × Nat × Nat
  | 0, cur, strong, weak => (pyStripWs cur, strong, weak)
  | fuel + 1, cur, strong, weak =>
    if 2 ≤ (pyStripWs cur).length then
      if (pyStripWs cur).head? = some '\x7b' ∧
          (pyStripWs cur).getLast? = some '\x7d' then
        stripBalancedF fuel (((pyStripWs cur).drop 1).dropLast) (strong + 1) weak
      else if (pyStripWs cur).head? = some '[' ∧
          (pyStripWs cur).getLast? = some ']' then
        stripBalancedF fuel (((pyStripWs cur).drop 1).dropLast) strong (weak + 1)
      else (pyStripWs cur, strong, weak)
    else (pyStripWs cur, strong, weak)

/-- `_strip_balanced_wrappers` from tags.py. -/
def stripBalanced (cur : List Char) (strong weak : Nat) :
    List Char × Nat × Nat :=
  stripBalancedF (cur.length + 1) cur strong weak

/-- `_consume_leading_wrappers`: scan leading `{`, `[` and whitespace,
counting wrapper characters.  (The trailing `token[i:].lstrip()` of the
Python code is a no-op: the scan only stops at a non-space character or at
the end of the token.) -/
def consumeLeading : List Char → Nat → Nat → List Char × Nat × Nat
  | [], s, w => ([], s, w)
  | c :: cs, s, w =>
    if c = '\x7b' then consumeLeading cs (s + 1) w
    else if c = '[' then consumeLeading cs s (w + 1)
    else if isPyWs c then consumeLeading cs s w
    else (c :: cs, s, w)

/-- Helper for `_consume_trailing_wrappers`, working on the reversed token. -/
def consumeTrailingRev : List Char → List Char
  | [] => []
  | c :: cs =>
    if c = '\x7d' ∨ c = ']' then consumeTrailingRev cs
    else if isPyWs c then consumeTrailingRev cs
    else c :: cs

/-- `_consume_trailing_wrappers`: drop trailing `}`, `]` and whitespace.
(The final `token[:end].rstrip()` of the Python code is likewise a no-op.) -/
def consumeTrailing (t : List Char) : List Char :=
  (consumeTrailingRev t.reverse).reverse

/-- The greedy number part `(?:\d*\.\d+|\d+)?` of `_weighted_prompt_re`,
matched at the front of the list; returns the matched characters and the
remainder.  (Regex backtracking into a shorter number cannot help here: the
number is followed by `\s*::`, and a digit or dot never equals a space or a
colon, so the maximal match is the only candidate.) -/
def numPart (l : List Char) : List Char × List Char :=
  let d1 := l.takeWhile Char.isDigit
  match l.dropWhile Char.isDigit with
  | '.' :: r2 =>
    let d2 := r2.takeWhile Char.isDigit
    if d2 = [] then (d1, l.dropWhile Char.isDigit)
    else (d1 ++ '.' :: d2, r2.dropWhile Char.isDigit)
  | _ => (d1, l.dropWhile Char.isDigit)

/-- `true` iff the list matches the optional trailer `(?:\s*::\s*)?$` of
`_weighted_prompt_re` in its entirety: either empty, or whitespace, `::`,
whitespace. -/
def isTrailer (l : List Char) : Bool :=
  l = [] ||
    (match l.dropWhile isPyWs with
     | ':' :: ':' :: r => r.all isPyWs
     | _ => false)

/-- The lazy group `(.*?)` of `_weighted_prompt_re`: the shortest prefix of
the remainder whose complement matches the optional `\s*::\s*` trailer (or
is empty, hitting `$`). -/
def lazyMiddle (pre suf : List Char) : List Char :=
  if isTrailer suf then pre
  else
    match suf with
    | [] => pre
    | c :: cs => lazyMiddle (pre ++ [c]) cs

/-- `_weighted_prompt_re.match(token)`:
`^([+-]?(?:\d*\.\d+|\d+)?)\s*::\s*(.*?)(?:\s*::\s*)?$`.
Returns `(group 1, group 2)` on success. -/
def pyWeightedMatch (l : List Char) : Option (List Char × List Char) :=
  let sr : List Char × List Char :=
    match l with
    | c :: cs => if c = '+' ∨ c = '-' then ([c], cs) else ([], l)
    | [] => ([], [])
  let nr := numPart sr.2
  let rest2 := nr.2.dropWhile isPyWs
  match rest2 with
  | ':' :: ':' :: rest3 => some (sr.1 ++ nr.1, lazyMiddle [] (rest3.dropWhile isPyWs))
  | _ => none

/-- Value of a decimal digit character. -/
def digitVal (c : Char) : ℕ :=
  c.toNat - 48

/-- Natural number denoted by a list of decimal digits. -/
def natOfDigits (l : List Char) : ℕ :=
  l.foldl (fun a c => a * 10 + digitVal c) 0

/-- Exact rational value of an unsigned decimal numeral of the shape matched
by the number part of `_weighted_prompt_re` (digits, optionally with one
decimal point). -/
def decToRatCore (l : List Char) : ℚ :=
  let ip := l.takeWhile Char.isDigit
  match l.dropWhile Char.isDigit with
  | '.' :: fp =>
    (natOfDigits ip : ℚ) +
      (natOfDigits (fp.takeWhile Char.isDigit) : ℚ) /
        (10 : ℚ) ^ (fp.takeWhile Char.isDigit).length
  | _ => (natOfDigits ip : ℚ)

/-- Python `float(numeric_str)` on the strings matched by group 1 of
`_weighted_prompt_re` (an optional sign followed by a decimal numeral; on
these strings `float` never raises). -/
def decToRat (l : List Char) : ℚ :=
  match l with
  | '+' :: rest => decToRatCore rest
  | '-' :: rest => -decToRatCore rest
  | _ => decToRatCore l

/-- `_parse_prompt_token` from tags.py, with a fuel parameter standing in for
the Python recursion (each recursive call is on a comma-separated piece of a
token that lost at least one comma and one sibling character, so the piece is
strictly shorter than the token; fuel `length + 1` therefore always
suffices).  Python floats are modelled as exact rationals, so
`1.1 ** strong` becomes `(11/10) ^ strong`; the `if strong:` / `if weak:`
guards around the multiplications only skip multiplying by `x ** 0 = 1` and
are absorbed into the exponentials. -/
def parsePromptTokenF :
    Nat → List Char → String → ℚ → Option String → List TagRecord
  | 0, _, _, _, _ => []
  | fuel + 1, rawToken, kind, weightFactor, inheritedEmphasis =>
    let token := pyStripWs rawToken
    if token = [] then []
    else
      let b := stripBalanced token 0 0
      let c := consumeLeading b.1 0 0
      let t3 := consumeTrailing c.1
      let strong := b.2.1 + c.2.1
      let weak := b.2.2 + c.2.2
      let lw := weightFactor * (11 / 10 : ℚ) ^ strong * (9 / 10 : ℚ) ^ weak
      let emphasis : Option String :=
        if strong ≠ 0 ∧ weak = 0 then some (r"strong")
        else if weak ≠ 0 ∧ strong = 0 then some (r"weak")
        else if strong ≠ 0 ∧ weak ≠ 0 then some (r"strong")
        else inheritedEmphasis
      if t3 = [] then []
      else
        let subs := split_prompt t3
        if 1 < subs.length then
          (subs.map fun sub => parsePromptTokenF fuel sub kind lw emphasis).flatten
        else
          let step : List Char × Option String × ℚ :=
            match pyWeightedMatch t3 with
            | some g =>
              let nv : ℚ :=
                if g.1 = [] ∨ g.1 = ['+'] ∨ g.1 = ['-'] then 1 else decToRat g.1
              (pyStripWs g.2, some (r"weighted"), lw * nv)
            | none => (t3, emphasis, lw)
          if step.1 = [] then []
          else
            let n := normalizeChars step.1
            if n = [] then []
            else
              [{ tag := ⟨pyStripWs step.1⟩
                 norm := ⟨n⟩
                 kind := kind
                 emphasis := step.2.1.getD (r"normal")
                 weight := step.2.2
                 raw := ⟨pyStripWs rawToken⟩ }]

/-- One step of the `results` dict of `parse_prompt`: insert a record,
deduplicating by `norm` and keeping the record with the larger absolute
weight (first-insertion order is preserved, as for a Python dict). -/
def dedupInsert (acc : List TagRecord) (r : TagRecord) : List TagRecord :=
  if acc.any fun e => e.norm = r.norm then
    acc.map fun e => if e.norm = r.norm ∧ |r.weight| > |e.weight| then r else e
  else acc ++ [r]

/-- `parse_prompt` from tags.py. -/
def parse_prompt (text : String) (kind : String) : List TagRecord :=
  if text.data = [] then []
  else
    (((split_prompt text.data).map fun raw =>
        parsePromptTokenF (raw.length + 1) raw kind 1 none).flatten).foldl
      dedupInsert []

/-! ### Query tokenizer (tags.py `parse_query_tokens`) and search engine
(search.py `normalize_path_pattern`, `build_matched_cte`) -/

/-- `str.startswith`: `startsWithL pat l` is `true` when `pat` is an initial
segment of `l`. -/
def startsWithL : List Char → List Char → Bool
  | [], _ => true
  | _ :: _, [] => false
  | a :: as, b :: bs => a == b && startsWithL as bs

/-- `re.split(r"[,\n]", query)`: split at every separator character, keeping
empty pieces (they are discarded by the caller after stripping). -/
def splitAny (p : Char → Bool) : List Char → List (List Char)
  | [] => [[]]
  | c :: cs =>
    if p c then [] :: splitAny p cs
    else
      match splitAny p cs with
      | t :: ts => (c :: t) :: ts
      | [] => [[c]]

/-- The `while token.startswith(("-", "!")):` loop of `parse_query_tokens`:
strip leading `-`/`!` markers (re-stripping whitespace after each, as
`token[1:].strip()` does), recording whether any marker was seen.  The fuel
parameter only bounds the loop: every iteration shortens the token, so
`length + 1` iterations always suffice and the fuel-exhaustion branch is
unreachable from `exDashLoop`. -/
def exDashLoopF : Nat → List Char → Bool → List Char × Bool
  | 0, t, ex => (t, ex)
  | fuel + 1, t, ex =>
    match t with
    | [] => ([], ex)
    | c :: cs =>
      if c = '-' ∨ c = '!' then exDashLoopF fuel (pyStripWs cs) true
      else (c :: cs, ex)

/-- The marker-stripping loop of `parse_query_tokens`. -/
def exDashLoop (t : List Char) (ex : Bool) : List Char × Bool :=
  exDashLoopF (t.length + 1) t ex

/-- Processing of one comma/newline-separated term inside
`parse_query_tokens`: strip, drop `-`/`!` markers, recognize the scope
prefixes `char:`, `character:`, `prompt:`, `uc:` (checked on the lowercased
term, in source order), drop markers again, and normalize; returns `none`
when the term is dropped. -/
def parseQueryTerm (raw : List Char) : Option (String × String × Bool) :=
  let token := pyStripWs raw
  if token = [] then none
  else
    let d1 := exDashLoop token false
    let lowered := d1.1.map asciiLower
    let kt : String × List Char :=
      if startsWithL (r"char:").data lowered then
        ((r"character"), pyStripWs (d1.1.drop 5))
      else if startsWithL (r"character:").data lowered then
        ((r"character"), pyStripWs (d1.1.drop 10))
      else if startsWithL (r"prompt:").data lowered then
        ((r"prompt"), pyStripWs (d1.1.drop 7))
      else if startsWithL (r"uc:").data lowered then
        ((r"negative"), pyStripWs (d1.1.drop 3))
      else ((r"any"), d1.1)
    let d2 := exDashLoop kt.2 d1.2
    let n := normalizeChars d2.1
    if n = [] then none else some (⟨n⟩, kt.1, d2.2)

/-- `parse_query_tokens` from tags.py: split the query on commas/newlines and
process each term; the result triples are `(norm, kind, exclude)`. -/
def parse_query_tokens (query : String) : List (String × String × Bool) :=
  if query.data = [] then []
  else (splitAny (fun c => c = ',' || c = '\n') query.data).filterMap parseQueryTerm

/-- `tokens_from_query` from search.py (a direct wrapper). -/
def tokens_from_query (query : String) : List (String × String × Bool) :=
  parse_query_tokens query

/-- `normalize_path_pattern` from search.py, in the `config is None` branch
(strip, then auto-insert wildcards when the pattern contains none: a
trailing-slash pattern becomes a directory wildcard, anything else a
substring wildcard). -/
def normalize_path_pattern (pat : String) : String :=
  let p := pyStripWs pat.data
  if (!p.isEmpty) && (!p.contains '*') && (!p.contains '?') then
    if p.getLast? = some '/' then
      ⟨[ '*', '/' ] ++ p.rdropWhile (fun c => c = '/') ++ [ '/', '*' ]⟩
    else ⟨('*' :: p) ++ [ '*' ]⟩
  else ⟨p⟩

/-- SQLite `GLOB` matching with `*` and `?` wildcards.  (The `[...]` class
syntax of `GLOB` is not modelled; `normalize_path_pattern` only introduces
`*`, and path filters are unreachable from `parse_query_tokens` anyway.) -/
def globMatch : List Char → List Char → Bool
  | [], [] => true
  | [], _ :: _ => false
  | '*' :: ps, s =>
    globMatch ps s ||
      (match s with
       | [] => false
       | _ :: s2 => globMatch ('*' :: ps) s2)
  | '?' :: ps, s =>
    (match s with
     | [] => false
     | _ :: s2 => globMatch ps s2)
  | p :: ps, s =>
    (match s with
     | [] => false
     | c :: s2 => p == c && globMatch ps s2)
termination_by pat s => (pat.length, s.length)

/-- SQLite `LIKE '%needle%'` (ASCII case-insensitive substring test). -/
def likeContains (needle hay : List Char) : Bool :=
  let n := needle.map asciiLower
  let go : List Char → Bool := fun h => startsWithL n h
  (List.range (hay.length + 1)).any fun i => go ((hay.map asciiLower).drop i)

/-! ### Data model (database.py schema: `images`, `tags`, `auto_tag_jobs`) -/

/-- One row of the `tags` table. -/
structure TagRow where
  imageId : Nat
  tag : String
  norm : String
  kind : String
  emphasis : String
  weight : ℚ
  raw : String
  source : String
deriving DecidableEq

/-- One row of the `images` table (including the columns added by the
`ALTER TABLE` migrations in `_ensure_schema`). -/
structure ImageRow where
  id : Nat
  path : String
  name : String
  mtime : ℚ
  size : Int
  width : Option Int
  height : Option Int
  seed : Option String
  model : Option String
  source : Option String
  description : Option String
  metadataJson : Option String
  rating : Option String
  ratingConfidence : Option ℚ
  ratingUpdated : Option ℚ
deriving DecidableEq

/-- One row of the `auto_tag_jobs` table. -/
structure JobRow where
  imageId : Nat
  status : String
  model : String
  error : Option String
  queuedAt : ℚ
  updatedAt : ℚ
deriving DecidableEq

/-- The database state used by the claims: the `images`, `tags` and
`auto_tag_jobs` tables.  (The FTS5 `tag_index` virtual table is kept in
lock-step with `tags` by the `tags_ai`/`tags_ad`/`tags_au` triggers of the
schema, so it is represented by the `tags` list itself.) -/
structure BooruDb where
  images : List ImageRow
  tags : List TagRow
  autoJobs : List JobRow
deriving DecidableEq

/-- The per-clause id set of `build_matched_cte` for one query token
`(norm, kind, _)`:
* `path` → `SELECT id FROM images WHERE path GLOB ?` with the normalized
  pattern;
* `model` / `seed` → `SELECT id FROM images WHERE <kind> LIKE '%norm%'`
  (a SQL `NULL` column never satisfies `LIKE`);
* `generator` / `sampler` / `scheduler` / `steps` / `cfg_scale` → these
  branches reference columns that do not exist in the `images` schema, so
  executing them would raise `sqlite3.OperationalError`; they are
  unreachable because `parse_query_tokens` never emits these kinds, and are
  modelled as selecting no rows;
* `any` → tag-index rows with kind `prompt` or `character` and the given
  norm (an FTS5 `MATCH 'norm:"x"'` on a single-token normalized column is
  exact equality, since every character of a normalized tag is a token
  character of the `unicode61 tokenchars '_.:-'` tokenizer);
* anything else → tag-index rows with the given kind and norm. -/
def clauseIds (db : BooruDb) (tok : String × String × Bool) : List Nat :=
  if tok.2.1 = (r"path") then
    (db.images.filter fun i =>
      globMatch (normalize_path_pattern tok.1).data i.path.data).map (·.id)
  else if tok.2.1 = (r"model") then
    (db.images.filter fun i =>
      match i.model with
      | some v => likeContains tok.1.data v.data
      | none => false).map (·.id)
  else if tok.2.1 = (r"seed") then
    (db.images.filter fun i =>
      match i.seed with
      | some v => likeContains tok.1.data v.data
      | none => false).map (·.id)
  else if tok.2.1 = (r"generator") ∨ tok.2.1 = (r"sampler") ∨
      tok.2.1 = (r"scheduler") ∨ tok.2.1 = (r"steps") ∨
      tok.2.1 = (r"cfg_scale") then
    []
  else if tok.2.1 = (r"any") then
    (db.tags.filter fun t =>
      (t.kind = (r"prompt") ∨ t.kind = (r"character")) ∧ t.norm = tok.1).map
      (·.imageId)
  else
    (db.tags.filter fun t => t.kind = tok.2.1 ∧ t.norm = tok.1).map (·.imageId)

/-- The `matched` CTE built by `build_matched_cte` and consumed by
`search_images` / `matched_image_ids`: positive clauses are chained with
`INTERSECT` and required via `id IN (...)`, negative clauses are chained
with `UNION` and excluded via `id NOT IN (...)`; with no clauses there is no
`WHERE` and every image is selected. -/
def matchedIds (db : BooruDb) (tokens : List (String × String × Bool)) :
    List Nat :=
  let posClauses := (tokens.filter fun t => !t.2.2).map (clauseIds db)
  let negClauses := (tokens.filter fun t => t.2.2).map (clauseIds db)
  (db.images.filter fun img =>
    (match posClauses with
     | [] => true
     | c :: cs => decide (img.id ∈ cs.foldl (fun a b => a.inter b) c)) &&
    (match negClauses with
     | [] => true
     | c :: cs => !decide (img.id ∈ cs.foldl (fun a b => a.union b) c))).map
    (·.id)

/-! ### Database mutation primitives (database.py) -/

/-- The row inserted by `apply_auto_tags` for one tag record (source is the
literal `'auto'`). -/
def mkAutoRow (imageId : Nat) (t : TagRecord) : TagRow :=
  { imageId := imageId
    tag := t.tag
    norm := t.norm
    kind := t.kind
    emphasis := t.emphasis
    weight := t.weight
    raw := t.raw
    source := (r"auto") }

/-- `LocalBooruDatabase.apply_auto_tags` (database.py lines 480-541), without
the optional `rating_scores` side channel (which only touches the `images`
rating columns and the `rating_jobs` table, never `tags`).  Within one
transaction: look the image up; collect the `(norm, kind)` pairs already
present from any source; under `'missing'` keep only records whose pair is
new (and with non-negative weight), under any other strategy (`'augment'`)
keep every record with non-negative weight; if nothing is kept return
`'skipped'`, otherwise insert every kept record with source `'auto'` and
return `'applied'`.  (The function never deletes or updates existing rows.) -/
def apply_auto_tags (db : BooruDb) (imageId : Nat) (tags : List TagRecord)
    (strategy : String) : String × BooruDb :=
  match db.images.find? fun i => i.id = imageId with
  | none => ((r"missing"), db)
  | some _ =>
    let existingTags :=
      (db.tags.filter fun t => t.imageId = imageId).map fun t => (t.norm, t.kind)
    let toAdd :=
      if strategy = (r"missing") then
        tags.filter fun t =>
          (!(existingTags.contains (t.norm, t.kind))) && decide (0 ≤ t.weight)
      else tags.filter fun t => decide (0 ≤ t.weight)
    if toAdd = [] then ((r"skipped"), db)
    else ((r"applied"), { db with tags := db.tags ++ toAdd.map (mkAutoRow imageId) })

/-- The qualification test of the amended `missing`-strategy claim, stated
independently of the code's filter/map/contains chain: a record qualifies
when its weight is non-negative and no row of the image — from any source,
manual rows included — already carries its `(norm, kind)` pair. -/
def missingQualifies (db : BooruDb) (imageId : Nat) (t : TagRecord) : Bool :=
  decide (0 ≤ t.weight) &&
    !(db.tags.any fun r =>
      r.imageId = imageId && r.norm = t.norm && r.kind = t.kind)

/-- The row inserted by `upsert_image_record` for one tag record
(`tag.source or 'embedded'`: Python's `or` replaces an empty string by the
default). -/
def mkEmbeddedRow (imageId : Nat) (t : TagRecord) : TagRow :=
  { imageId := imageId
    tag := t.tag
    norm := t.norm
    kind := t.kind
    emphasis := t.emphasis
    weight := t.weight
    raw := t.raw
    source := if t.source = (r"") then (r"embedded") else t.source }

/-- `LocalBooruDatabase.upsert_image_record` (database.py lines 162-279).
Within one transaction: insert or update the image row (an update's
`cur.rowcount` counts the rows matched by `WHERE path=?`); with an empty tag
sequence delete every tag row of the image and return; otherwise diff the
norm sets and delete/insert/update accordingly.  The fresh id of an inserted
row models SQLite's `lastrowid` as max existing id + 1. -/
def upsert_image_record (db : BooruDb) (relPath name : String) (mtime : ℚ)
    (size : Int) (width height : Option Int)
    (seed model source description metadataJson : Option String)
    (tags : List TagRecord) : (Nat × Bool) × BooruDb :=
  let existing := db.images.find? fun i => i.path = relPath
  let imageId :=
    match existing with
    | none => (db.images.map (·.id)).foldl max 0 + 1
    | some img => img.id
  let images1 :=
    match existing with
    | none =>
      db.images ++
        [{ id := imageId, path := relPath, name := name, mtime := mtime
           size := size, width := width, height := height, seed := seed
           model := model, source := source, description := description
           metadataJson := metadataJson, rating := none
           ratingConfidence := none, ratingUpdated := none }]
    | some _ =>
      db.images.map fun i =>
        if i.path = relPath then
          { i with name := name, mtime := mtime, size := size, width := width
                   height := height, seed := seed, model := model
                   source := source, description := description
                   metadataJson := metadataJson }
        else i
  let changed :=
    match existing with
    | none => true
    | some _ => decide (0 < (db.images.filter fun i => i.path = relPath).length)
  if tags = [] then
    ((imageId, changed),
      { db with images := images1
                tags := db.tags.filter fun t => !(t.imageId = imageId) })
  else
    let existingNorms := (db.tags.filter fun t => t.imageId = imageId).map (·.norm)
    let isOld : String → Bool := fun n => existingNorms.contains n
    let isNew : String → Bool := fun n => tags.any fun t => t.norm = n
    let afterDelete :=
      db.tags.filter fun t => !(t.imageId = imageId && isOld t.norm && !isNew t.norm)
    let finalTags :=
      tags.foldl
        (fun acc t =>
          if !isOld t.norm then acc ++ [mkEmbeddedRow imageId t]
          else
            acc.map fun row =>
              if row.imageId = imageId ∧ row.norm = t.norm then
                { row with tag := t.tag, kind := t.kind, emphasis := t.emphasis
                           weight := t.weight, raw := t.raw
                           source := if t.source = (r"") then (r"embedded")
                                     else t.source }
              else row)
        afterDelete
    let anyDiff :=
      existingNorms.any (fun n => !isNew n) ||
        tags.any (fun t => !isOld t.norm) || existingNorms.any isNew
    ((imageId, changed || anyDiff), { db with images := images1, tags := finalTags })

/-- Modelled from the spec: `reset_stuck_auto_jobs`.  cli.py (lines 385-398)
calls `db.reset_stuck_clip_jobs(...)` and `db.reset_stuck_auto_jobs()` right
after opening the database and before the worker threads are constructed,
but no definition of these methods exists under src/.  Modelled from the
spec sentence "At process startup, any Job left in `processing` (from a
prior crash) is reset to `pending`": update every job row whose status is
`'processing'` to `'pending'` in place, and return the number of rows so
updated.  (`reset_stuck_clip_jobs` acts identically on the
`clip_embeddings` table.) -/
def reset_stuck_auto_jobs (db : BooruDb) : Nat × BooruDb :=
  ((db.autoJobs.filter fun j => j.status = (r"processing")).length,
    { db with autoJobs := db.autoJobs.map fun j =>
        if j.status = (r"processing") then { j with status := (r"pending") }
        else j })

/-! ### Progress and rate/ETA estimation (auto_tagging.py `AutoTagProgress`) -/

/-- `AutoTagProgress.refresh_from_db` line `queued = max(total - completed -
processing - errors, 0)` (Python ints are unbounded, so plain `Int`). -/
def refreshQueued (total completed processing errors : Int) : Int :=
  max (total - completed - processing - errors) 0

/-- The scan `for past_time, past_completed in reversed(self.history[:-1])`
of `_compute_rate_eta`: starting from the sample closest to the latest one,
find the first pair with `delta_count > 0 and delta_time >= 1.0` and return
`(delta_count / delta_time) * 60.0`; default `0.0`. -/
def findRatePair (lt : ℚ) (lc : Int) : List (ℚ × Int) → ℚ
  | [] => 0
  | (pt, pc) :: rest =>
    if 0 < lc - pc ∧ 1 ≤ lt - pt then (((lc - pc : Int) : ℚ) / (lt - pt)) * 60
    else findRatePair lt lc rest

/-- `AutoTagProgress._compute_rate_eta` (auto_tagging.py lines 103-118):
history is a list of `(timestamp, completed)` samples; the rate comes from
`findRatePair` over the reversed prefix; `remaining = max(queued +
processing, 0)`; the ETA `(remaining / rate) * 60` is produced only when
both the rate and `remaining` are positive. -/
def computeRateEta (history : List (ℚ × Int)) (queued processing : Int) :
    ℚ × Option ℚ :=
  match history.getLast? with
  | none => (0, none)
  | some (lt, lc) =>
    let rate := findRatePair lt lc history.dropLast.reverse
    let remaining := max (queued + processing) 0
    if 0 < rate ∧ 0 < remaining then
      (rate, some (((remaining : ℚ) / rate) * 60))
    else (rate, none)

/-- Specification-side restatement of the corrected rate rule, structured
independently of the code (filter then first element): the most recent
earlier sample with positive completed-delta and time-delta at least the
one-second threshold. -/
def rateFromHistory (history : List (ℚ × Int)) : ℚ :=
  match history.getLast? with
  | none => 0
  | some (lt, lc) =>
    match (history.dropLast.reverse.filter fun s =>
        decide (0 < lc - s.2) && decide (1 ≤ lt - s.1)).head? with
    | none => 0
    | some (pt, pc) => (((lc - pc : Int) : ℚ) / (lt - pt)) * 60

/-- The rate rule as worded by the claim: the most recent sample pair whose
time delta meets the minimum threshold (with no condition on the completed
delta). -/
def claimRate (history : List (ℚ × Int)) : ℚ :=
  match history.getLast? with
  | none => 0
  | some (lt, lc) =>
    match (history.dropLast.reverse.filter fun s =>
        decide (1 ≤ lt - s.1)).head? with
    | none => 0
    | some (pt, pc) => (((lc - pc : Int) : ℚ) / (lt - pt)) * 60

/-! ### Concrete fixtures for counterexamples and witnesses -/

/-- A minimal image row. -/
def mkImg (i : Nat) (p : String) : ImageRow :=
  { id := i, path := p, name := p, mtime := 0, size := 1, width := none
    height := none, seed := none, model := none, source := none
    description := none, metadataJson := none, rating := none
    ratingConfidence := none, ratingUpdated := none }

/-- A prompt-kind tag row with the given source. -/
def mkTagRow (i : Nat) (n : String) (src : String) : TagRow :=
  { imageId := i, tag := n, norm := n, kind := (r"prompt"), emphasis := (r"normal")
    weight := 1, raw := n, source := src }

/-- The auto-generated record used by the repository's own test
`test_apply_auto_tags_augments_and_skips`. -/
def masterpieceRec : TagRecord :=
  { tag := (r"masterpiece"), norm := (r"masterpiece"), kind := (r"prompt")
    emphasis := (r"normal"), weight := 1
    raw := (r"wd14:masterpiece:0.950"), source := (r"auto") }

/-- State after the first `augment` application of `masterpieceRec`: the
image has one embedded tag and the auto tag already applied. -/
def dbAfterFirstAugment : BooruDb :=
  { images := [mkImg 1 (r"has_tags.png")]
    tags := [mkTagRow 1 (r"sunset") (r"embedded"),
             mkAutoRow 1 masterpieceRec]
    autoJobs := [] }

/-- A database whose image 1 carries one manual (embedded) tag. -/
def dbWithManualTag : BooruDb :=
  { images := [mkImg 1 (r"img.png")]
    tags := [mkTagRow 1 (r"sunset") (r"embedded")]
    autoJobs := [] }

/-- The auto record offered under the `missing` strategy in the repository's
test. -/
def cloudsRec : TagRecord :=
  { tag := (r"clouds"), norm := (r"clouds"), kind := (r"prompt")
    emphasis := (r"normal"), weight := 1
    raw := (r"wd14:clouds:0.600"), source := (r"auto") }

/-- Two-image database for the query-compiler example: image 1 is tagged
only `masterpiece`, image 2 is tagged `masterpiece` and `lowres`. -/
def exSearchDb : BooruDb :=
  { images := [mkImg 1 (r"a.png"), mkImg 2 (r"b.png")]
    tags := [mkTagRow 1 (r"masterpiece") (r"embedded"),
             mkTagRow 2 (r"masterpiece") (r"embedded"),
             mkTagRow 2 (r"lowres") (r"embedded")]
    autoJobs := [] }

/-- Database for the frame-effect claim about `upsert_image_record`: image 1
carries an embedded tag, an auto tag and a dbrating tag; image 2 keeps its
own rows. -/
def dbForUpsert : BooruDb :=
  { images := [mkImg 1 (r"a.png"), mkImg 2 (r"b.png")]
    tags := [mkTagRow 1 (r"sunset") (r"embedded"),
             mkTagRow 1 (r"clouds") (r"auto"),
             { imageId := 1, tag := (r"rating:explicit"), norm := (r"explicit")
               kind := (r"rating"), emphasis := (r"normal"), weight := 1
               raw := (r"dbrating:rating:explicit:0.900"), source := (r"dbrating") },
             mkTagRow 2 (r"sunset") (r"embedded")]
    autoJobs := [{ imageId := 1, status := (r"ready"), model := (r"ConvNextV2")
                   error := none, queuedAt := 0, updatedAt := 0 }] }

/-- `n` balanced wrapper pairs around a token, for the wrapped-token claims
about the prompt parser: `wrapPairs o c n t` is `o…o t c…c` with `n` copies
of each bracket. -/
def wrapPairs (o c : Char) : Nat → List Char → List Char
  | 0, t => t
  | n + 1, t => o :: (wrapPairs o c n t ++ [c])

/-! ### Helper lemmas about the string primitives -/

theorem mem_of_head? {l : List Char} {c : Char} (h : l.head? = some c) :
    c ∈ l := by
  cases l with
  | nil => simp at h
  | cons a t => simp at h; simp [h]

theorem head?_dropWhile {p : Char → Bool} {l : List Char} {c : Char}
    (h : (l.dropWhile p).head? = some c) : p c = false := by
  induction l with
  | nil => simp at h
  | cons a t ih =>
    rw [List.dropWhile_cons] at h
    by_cases hp : p a
    · rw [if_pos hp] at h
      exact ih h
    · rw [if_neg hp] at h
      simp at h
      subst h
      simpa using hp

theorem getLast?_rdropWhile {p : Char → Bool} {l : List Char} {c : Char}
    (h : (l.rdropWhile p).getLast? = some c) : p c = false := by
  rw [List.rdropWhile, List.getLast?_reverse] at h
  exact head?_dropWhile h

theorem head?_of_isPrefix {l₁ l₂ : List Char} {c : Char} (h : l₁ <+: l₂)
    (hc : l₁.head? = some c) : l₂.head? = some c := by
  obtain ⟨t, rfl⟩ := h
  cases l₁ with
  | nil => simp at hc
  | cons a t' => simpa using hc

theorem head?_pyStrip {p : Char → Bool} {l : List Char} {c : Char}
    (h : (pyStrip p l).head? = some c) : p c = false := by
  have hp : (pyStrip p l) <+: (l.dropWhile p) := List.rdropWhile_prefix ..
  exact head?_dropWhile (head?_of_isPrefix hp h)

theorem getLast?_pyStrip {p : Char → Bool} {l : List Char} {c : Char}
    (h : (pyStrip p l).getLast? = some c) : p c = false :=
  getLast?_rdropWhile h

theorem mem_pyStrip {p : Char → Bool} {l : List Char} {c : Char}
    (h : c ∈ pyStrip p l) : c ∈ l :=
  (List.dropWhile_suffix p).sublist.subset
    ((List.rdropWhile_prefix ..).sublist.subset h)

theorem dropWhile_eq_self_of_head {p : Char → Bool} {l : List Char}
    (h : ∀ c, l.head? = some c → p c = false) : l.dropWhile p = l := by
  cases l with
  | nil => rfl
  | cons a t =>
    rw [List.dropWhile_cons, if_neg]
    simp [h a rfl]

theorem rdropWhile_eq_self_of_last {p : Char → Bool} {l : List Char}
    (h : ∀ c, l.getLast? = some c → p c = false) : l.rdropWhile p = l := by
  rw [List.rdropWhile, dropWhile_eq_self_of_head, List.reverse_reverse]
  intro c hc
  rw [List.head?_reverse] at hc
  exact h c hc

theorem pyStrip_eq_self {p : Char → Bool} {l : List Char}
    (hh : ∀ c, l.head? = some c → p c = false)
    (hl : ∀ c, l.getLast? = some c → p c = false) : pyStrip p l = l := by
  rw [pyStrip, dropWhile_eq_self_of_head hh, rdropWhile_eq_self_of_last hl]

theorem mem_of_getLast? {l : List Char} {c : Char} (h : l.getLast? = some c) :
    c ∈ l := by
  have : l.reverse.head? = some c := by rw [List.head?_reverse]; exact h
  have := mem_of_head? this
  simpa using this

theorem pyStrip_eq_self_of_none {p : Char → Bool} {l : List Char}
    (h : ∀ c ∈ l, p c = false) : pyStrip p l = l :=
  pyStrip_eq_self (fun c hc => h c (mem_of_head? hc))
    (fun c hc => h c (mem_of_getLast? hc))

theorem map_id_of {f : Char → Char} {l : List Char}
    (h : ∀ c ∈ l, f c = c) : l.map f = l := by
  induction l with
  | nil => rfl
  | cons a t ih => simp [h a (by simp), ih fun c hc => h c (by simp [hc])]

theorem mem_collapseRuns {p : Char → Bool} {r : Char} {l : List Char}
    {b : Bool} {c : Char} (h : c ∈ collapseRuns p r l b) : c = r ∨ c ∈ l := by
  induction l generalizing b with
  | nil => simp [collapseRuns] at h
  | cons a t ih =>
    rw [collapseRuns] at h
    by_cases hp : p a
    · rw [if_pos hp] at h
      cases b with
      | true =>
        rw [if_pos rfl] at h
        rcases ih h with h' | h'
        · exact Or.inl h'
        · exact Or.inr (by simp [h'])
      | false =>
        rw [if_neg (by simp)] at h
        rcases List.mem_cons.mp h with h' | h'
        · exact Or.inl h'
        · rcases ih h' with h'' | h''
          · exact Or.inl h''
          · exact Or.inr (by simp [h''])
    · rw [if_neg hp] at h
      rcases List.mem_cons.mp h with h' | h'
      · exact Or.inr (by simp [h'])
      · rcases ih h' with h'' | h''
        · exact Or.inl h''
        · exact Or.inr (by simp [h''])

theorem collapseRuns_eq_self_of_none {p : Char → Bool} {r : Char}
    {l : List Char} (h : ∀ c ∈ l, p c = false) :
    ∀ b, collapseRuns p r l b = l := by
  induction l with
  | nil => intro b; rfl
  | cons a t ih =>
    intro b
    rw [collapseRuns, if_neg (by simp [h a (by simp)]),
      ih fun c hc => h c (by simp [hc])]

theorem head?_collapseRuns_true {p : Char → Bool} {r : Char} {l : List Char}
    {c : Char} (h : (collapseRuns p r l true).head? = some c) : p c = false := by
  induction l with
  | nil => simp [collapseRuns] at h
  | cons a t ih =>
    rw [collapseRuns] at h
    by_cases hp : p a
    · rw [if_pos hp, if_pos rfl] at h
      exact ih h
    · rw [if_neg hp] at h
      simp at h
      subst h
      simpa using hp

theorem noRun_tail {p : Char → Bool} {c : Char} {l : List Char}
    (h : noRun p (c :: l) = true) : noRun p l = true := by
  cases l with
  | nil => rfl
  | cons d t =>
    rw [noRun] at h
    exact (Bool.and_eq_true ..).mp h |>.2

theorem noRun_cons {p : Char → Bool} {c : Char} {l : List Char}
    (hl : noRun p l = true)
    (hc : ∀ d, l.head? = some d → (p c && p d) = false) :
    noRun p (c :: l) = true := by
  cases l with
  | nil => rfl
  | cons d t =>
    rw [noRun, Bool.and_eq_true]
    exact ⟨by simp [hc d rfl], hl⟩

theorem noRun_collapseRuns (p : Char → Bool) (r : Char) (l : List Char) :
    ∀ b, noRun p (collapseRuns p r l b) = true := by
  induction l with
  | nil => intro b; rfl
  | cons a t ih =>
    intro b
    rw [collapseRuns]
    by_cases hp : p a
    · rw [if_pos hp]
      cases b with
      | true => rw [if_pos rfl]; exact ih true
      | false =>
        rw [if_neg (by simp)]
        refine noRun_cons (ih true) fun d hd => ?_
        simp [head?_collapseRuns_true hd]
    · rw [if_neg hp]
      refine noRun_cons (ih false) fun d _ => ?_
      simp [hp]

theorem noRun_append_right {p : Char → Bool} {a b : List Char}
    (h : noRun p (a ++ b) = true) : noRun p b = true := by
  induction a with
  | nil => exact h
  | cons c a' ih => exact ih (noRun_tail h)

theorem noRun_head {p : Char → Bool} {c d : Char} {l : List Char}
    (h : noRun p (c :: d :: l) = true) : (p c && p d) = false := by
  cases hcd : (p c && p d) with
  | false => rfl
  | true => rw [noRun, hcd] at h; simp at h

theorem noRun_append_left {p : Char → Bool} {a b : List Char}
    (h : noRun p (a ++ b) = true) : noRun p a = true := by
  induction a with
  | nil => rfl
  | cons c a' ih =>
    cases a' with
    | nil => rfl
    | cons d a'' =>
      refine noRun_cons (ih (noRun_tail h)) fun e he => ?_
      simp at he
      rw [← he]
      exact noRun_head h

theorem noRun_pyStrip {p q : Char → Bool} {l : List Char}
    (h : noRun p l = true) : noRun p (pyStrip q l) = true := by
  have h1 : noRun p (l.dropWhile q) = true := by
    obtain ⟨t, ht⟩ := (List.dropWhile_suffix q : l.dropWhile q <:+ l)
    have h2 := h
    rw [← ht] at h2
    exact noRun_append_right h2
  obtain ⟨t, ht⟩ :=
    (List.rdropWhile_prefix .. : (l.dropWhile q).rdropWhile q <+: l.dropWhile q)
  rw [← ht] at h1
  exact noRun_append_left h1

theorem collapseRuns_eq_self_of_noRun {p : Char → Bool} {r : Char}
    (hpr : ∀ c, p c = true → c = r) {l : List Char} :
    ∀ b, noRun p l = true →
      (b = true → ∀ c, l.head? = some c → p c = false) →
      collapseRuns p r l b = l := by
  induction l with
  | nil => intro b _ _; rfl
  | cons a t ih =>
    intro b hnr hb
    rw [collapseRuns]
    by_cases hp : p a
    · have hb' : b = false := by
        cases b with
        | false => rfl
        | true => simpa [hp] using hb rfl a rfl
      subst hb'
      rw [if_pos hp, if_neg (by simp), hpr a hp]
      congr 1
      refine ih true (noRun_tail hnr) fun _ c hc => ?_
      cases t with
      | nil => simp at hc
      | cons d t' =>
        simp at hc
        have := noRun_head hnr
        rw [hp] at this
        simpa [← hc] using this
    · rw [if_neg hp]
      congr 1
      exact ih false (noRun_tail hnr) (by simp)

/-! ### Character-class facts and normalization invariants -/

theorem isTagChar_not_ws {c : Char} (h : isTagChar c = true) :
    isPyWs c = false := by
  cases hw : isPyWs c with
  | false => rfl
  | true =>
    exfalso
    simp [isPyWs] at hw
    rcases hw with ((((h1 | h1) | h1) | h1) | h1) | h1 <;> subst h1 <;>
      exact absurd h (by decide)

theorem asciiLower_fix {c : Char} (h : isTagChar c = true) :
    asciiLower c = c := by
  simp [isTagChar] at h
  rcases h with (((⟨h1, _⟩ | ⟨_, h2⟩) | h1) | h1) | h1
  · rw [asciiLower, if_neg (by omega)]
  · rw [asciiLower, if_neg (by omega)]
  · subst h1; decide
  · subst h1; decide
  · subst h1; decide

theorem mem_nstage3_tagChar {l : List Char} {c : Char} (h : c ∈ nstage3 l) :
    isTagChar c = true := by
  rw [nstage3] at h
  obtain ⟨x, _, hx⟩ := List.mem_map.mp h
  by_cases ht : isTagChar x
  · rw [if_pos ht] at hx
    rw [← hx]
    exact ht
  · rw [if_neg ht] at hx
    rw [← hx]
    decide

theorem mem_nstage4_tagChar {l : List Char} {c : Char} (h : c ∈ nstage4 l) :
    isTagChar c = true := by
  rcases mem_collapseRuns h with h' | h'
  · subst h'; decide
  · exact mem_nstage3_tagChar h'

theorem mem_normalizeChars_tagChar {l : List Char} {c : Char}
    (h : c ∈ normalizeChars l) : isTagChar c = true :=
  mem_nstage4_tagChar (mem_pyStrip h)

theorem noRun_normalizeChars (l : List Char) :
    noRun (fun c => c = '_') (normalizeChars l) = true :=
  noRun_pyStrip (noRun_collapseRuns ..)

theorem head?_normalizeChars {l : List Char} {c : Char}
    (h : (normalizeChars l).head? = some c) : c ≠ '_' := by
  have := head?_pyStrip h
  simpa using this

theorem getLast?_normalizeChars {l : List Char} {c : Char}
    (h : (normalizeChars l).getLast? = some c) : c ≠ '_' := by
  have := getLast?_pyStrip h
  simpa using this

theorem normalizeChars_idem (l : List Char) :
    normalizeChars (normalizeChars l) = normalizeChars l := by
  have hchars : ∀ c ∈ normalizeChars l, isTagChar c = true := fun c hc =>
    mem_normalizeChars_tagChar hc
  have hws : ∀ c ∈ normalizeChars l, isPyWs c = false := fun c hc =>
    isTagChar_not_ws (hchars c hc)
  have h1 : nstage1 (normalizeChars l) = normalizeChars l := by
    rw [nstage1, pyStripWs, pyStrip_eq_self_of_none hws]
    exact map_id_of fun c hc => asciiLower_fix (hchars c hc)
  have h2 : nstage2 (normalizeChars l) = normalizeChars l := by
    rw [nstage2, h1]
    exact collapseRuns_eq_self_of_none hws false
  have h3 : nstage3 (normalizeChars l) = normalizeChars l := by
    rw [nstage3, h2]
    exact map_id_of fun c hc => by rw [if_pos (hchars c hc)]
  have h4 : nstage4 (normalizeChars l) = normalizeChars l := by
    rw [nstage4, h3]
    exact collapseRuns_eq_self_of_noRun (by simp)
      false (noRun_normalizeChars l) (by simp)
  rw [normalizeChars, h4]
  exact pyStrip_eq_self
    (fun c hc => by simpa using head?_normalizeChars hc)
    (fun c hc => by simpa using getLast?_normalizeChars hc)

/-- C6: `normalize_tag` is total (it is a Lean function), idempotent, its
output consists only of characters of the class `[a-z0-9_:-]`, and the
output has no leading and no trailing underscore. -/
theorem normalize_tag_spec (s : String) :
    normalize_tag (normalize_tag s) = normalize_tag s ∧
    (normalize_tag s).data.all isTagChar = true ∧
    (normalize_tag s).data.head? ≠ some '_' ∧
    (normalize_tag s).data.getLast? ≠ some '_' := by
  refine ⟨?_, ?_, ?_, ?_⟩
  · show (⟨normalizeChars (normalizeChars s.data)⟩ : String) = _
    rw [normalizeChars_idem]
    rfl
  · rw [List.all_eq_true]
    exact fun c hc => mem_normalizeChars_tagChar hc
  · intro h
    exact head?_normalizeChars h rfl
  · intro h
    exact getLast?_normalizeChars h rfl

/-- Closed instance of `normalize_tag_spec` at a concrete string, with the
concrete value of the normalization evaluated. -/
theorem normalize_tag_spec_instance :
    normalize_tag (normalize_tag (r"  Blue   Eyes!! ")) =
      normalize_tag (r"  Blue   Eyes!! ") ∧
    normalize_tag (r"  Blue   Eyes!! ") = (r"blue_eyes") :=
  ⟨(normalize_tag_spec (r"  Blue   Eyes!! ")).1, by decide⟩

/-! ### C1 and C2: the auto-tag merge strategies -/

/-- C1: evaluation of `apply_auto_tags` at the failing input of the claim.
`dbAfterFirstAugment` is the state reached by the repository's own test
`test_apply_auto_tags_augments_and_skips` after the first `augment`
application; re-applying the identical record list under `augment` is *not*
a no-op: it inserts a second identical auto-sourced row for
`(prompt, masterpiece)` and reports `applied`, where both the spec and the
test's `assert repeat == "skipped"` require an unchanged database.  The
`augment` branch never diffs against the stored auto-sourced set and never
deletes or updates a row. -/
theorem apply_auto_tags_augment_repeat_not_noop :
    (apply_auto_tags dbAfterFirstAugment 1 [masterpieceRec] (r"augment")).1 =
      (r"applied") ∧
    (apply_auto_tags dbAfterFirstAugment 1 [masterpieceRec]
      (r"augment")).2 ≠ dbAfterFirstAugment ∧
    ((apply_auto_tags dbAfterFirstAugment 1 [masterpieceRec]
        (r"augment")).2.tags.filter fun t =>
      t.norm = (r"masterpiece") ∧ t.kind = (r"prompt") ∧
        t.source = (r"auto")).length = 2 := by
  refine ⟨by decide, by decide, by decide⟩

/-- C2 counterexample: the image of `dbWithManualTag` carries a manual
(non-auto) tag, yet `apply_auto_tags` with strategy `missing` does not skip:
it inserts the offered record and reports `applied`, changing the image's
tag rows.  (The repository's own test asserts exactly this `applied`
outcome.) -/
theorem apply_auto_tags_missing_despite_manual :
    (dbWithManualTag.tags.any fun t =>
      t.imageId = 1 ∧ ¬t.source = (r"auto")) = true ∧
    (apply_auto_tags dbWithManualTag 1 [cloudsRec] (r"missing")).1 =
      (r"applied") ∧
    (apply_auto_tags dbWithManualTag 1 [cloudsRec] (r"missing")).2.tags ≠
      dbWithManualTag.tags := by
  refine ⟨by decide, by decide, by decide⟩

/-- Helper: on `String` the `==` test is the decidable-equality test. -/
theorem string_beq_decide (a b : String) : (a == b) = decide (a = b) := by
  by_cases h : a = b
  · subst h
    simp
  · simp [h, beq_eq_false_iff_ne]

/-- Helper: membership in the image of a filtered list is a single `any`
scan with the conjunction of the filter test and the hit test. -/
theorem contains_map_qualifier {α β : Type} [BEq β] (rows : List α)
    (p : α → Bool) (f : α → β) (x : β) :
    ((rows.filter p).map f).contains x = rows.any fun r => p r && (x == f r) := by
  induction rows with
  | nil => rfl
  | cons r rs ih =>
    rw [List.any_cons, List.filter_cons]
    cases hp : p r with
    | true =>
      rw [if_pos rfl, List.map_cons, List.contains_cons, ih, Bool.true_and]
    | false =>
      rw [if_neg (by simp), ih, Bool.false_and, Bool.false_or]

/-- Helper: the code's `(norm, kind) in existing_tags` test over the rows of
one image equals the independent row-wise `any` scan of `missingQualifies`. -/
theorem contains_filter_map_pairs (rows : List TagRow) (imageId : Nat)
    (t : TagRecord) :
    (((rows.filter fun r => r.imageId = imageId).map fun r =>
        (r.norm, r.kind)).contains (t.norm, t.kind)) =
    rows.any fun r =>
      r.imageId = imageId && r.norm = t.norm && r.kind = t.kind := by
  rw [contains_map_qualifier]
  congr 1
  funext r
  rw [show ((t.norm, t.kind) == (r.norm, r.kind)) =
      (t.norm == r.norm && t.kind == r.kind) from rfl]
  simp only [string_beq_decide, Bool.and_assoc, eq_comm]

/-- C2 (amended): on an existing image, strategy `missing` appends EXACTLY
the auto-sourced copies of the offered records that qualify — non-negative
weight and `(norm, kind)` pair not already on the image from any source —
in offer order after the untouched previous rows (so an image with a manual
tag still gains every qualifying record, and nothing is modified or
deleted); the status is `applied` exactly when some record qualifies, else
`skipped`; the `images` and `auto_tag_jobs` tables are untouched. -/
theorem apply_auto_tags_missing_spec (db : BooruDb) (imageId : Nat)
    (tags : List TagRecord) (img : ImageRow)
    (h : db.images.find? (fun i => i.id = imageId) = some img) :
    (apply_auto_tags db imageId tags (r"missing")).2.tags =
      db.tags ++
        (tags.filter (missingQualifies db imageId)).map (mkAutoRow imageId) ∧
    (apply_auto_tags db imageId tags (r"missing")).1 =
      (if (tags.any (missingQualifies db imageId)) = true then (r"applied")
       else (r"skipped")) ∧
    (apply_auto_tags db imageId tags (r"missing")).2.images = db.images ∧
    (apply_auto_tags db imageId tags (r"missing")).2.autoJobs =
      db.autoJobs := by
  rw [apply_auto_tags, h]
  simp only [if_pos rfl, if_true]
  have hpred : ∀ t ∈ tags,
      ((!(((db.tags.filter fun r => r.imageId = imageId).map fun r =>
          (r.norm, r.kind)).contains (t.norm, t.kind))) &&
        decide (0 ≤ t.weight)) = missingQualifies db imageId t := by
    intro t _
    rw [missingQualifies, contains_filter_map_pairs, Bool.and_comm]
  rw [List.filter_congr hpred]
  by_cases hta : tags.filter (missingQualifies db imageId) = []
  · rw [if_pos hta, hta]
    have hany : tags.any (missingQualifies db imageId) = false := by
      rw [List.any_eq_false]
      intro t ht
      have := List.filter_eq_nil_iff.mp hta t ht
      simpa using this
    rw [hany]
    simp
  · rw [if_neg hta]
    have hany : tags.any (missingQualifies db imageId) = true := by
      rw [List.any_eq_true]
      obtain ⟨t, ht⟩ := List.exists_mem_of_ne_nil _ hta
      exact ⟨t, List.mem_of_mem_filter ht, List.of_mem_filter ht⟩
    rw [hany]
    simp

/-- Closed instance of `apply_auto_tags_missing_spec` at `dbWithManualTag`:
the image exists, its only row is a manual (embedded) tag, and the one
offered record qualifies, so it is appended and the status is `applied`. -/
theorem apply_auto_tags_missing_instance :
    (apply_auto_tags dbWithManualTag 1 [cloudsRec] (r"missing")).2.tags =
      dbWithManualTag.tags ++
        ([cloudsRec].filter (missingQualifies dbWithManualTag 1)).map
          (mkAutoRow 1) ∧
    (apply_auto_tags dbWithManualTag 1 [cloudsRec] (r"missing")).1 =
      (if ([cloudsRec].any (missingQualifies dbWithManualTag 1)) = true
       then (r"applied") else (r"skipped")) ∧
    (apply_auto_tags dbWithManualTag 1 [cloudsRec] (r"missing")).2.images =
      dbWithManualTag.images ∧
    (apply_auto_tags dbWithManualTag 1 [cloudsRec] (r"missing")).2.autoJobs =
      dbWithManualTag.autoJobs :=
  apply_auto_tags_missing_spec dbWithManualTag 1 [cloudsRec]
    (mkImg 1 (r"img.png")) (by decide)

/-! ### C3: stuck-job reset at startup -/

/-- Helper: zipping a list with its image under a map. -/
theorem zip_self_map {α β : Type} (l : List α) (f : α → β) :
    l.zip (l.map f) = l.map fun a => (a, f a) := by
  induction l with
  | nil => rfl
  | cons a t ih => simp [ih]

/-- C3: the startup stuck-job reset.  `main` invokes it once, right after
opening the database and before any worker thread is constructed (cli.py
lines 385-398).  For every database state: afterwards no job is left in
`processing`; the row set is updated in place (the image-id column is
unchanged, so no row is duplicated or dropped); a job formerly in
`processing` becomes the same row with status `pending` and every other row
is untouched; running the reset a second time resets nothing and changes
nothing (the reset happens exactly once); the `images` and `tags` tables are
untouched. -/
theorem reset_stuck_jobs_spec (db : BooruDb) :
    ((reset_stuck_auto_jobs db).2.autoJobs.all fun j =>
      !(j.status = (r"processing"))) = true ∧
    (reset_stuck_auto_jobs db).2.autoJobs.map (fun j => j.imageId) =
      db.autoJobs.map (fun j => j.imageId) ∧
    ((db.autoJobs.zip (reset_stuck_auto_jobs db).2.autoJobs).all fun p =>
      if p.1.status = (r"processing") then
        p.2 = { p.1 with status := (r"pending") }
      else p.2 = p.1) = true ∧
    reset_stuck_auto_jobs (reset_stuck_auto_jobs db).2 =
      (0, (reset_stuck_auto_jobs db).2) ∧
    (reset_stuck_auto_jobs db).2.images = db.images ∧
    (reset_stuck_auto_jobs db).2.tags = db.tags := by
  have hstat : ∀ j : JobRow,
      ((if j.status = (r"processing") then
          { j with status := (r"pending") } else j).status =
        (r"processing")) = False := by
    intro j
    by_cases h : j.status = (r"processing")
    · simp [h]
    · simp [h]
  refine ⟨?_, ?_, ?_, ?_, rfl, rfl⟩
  · rw [reset_stuck_auto_jobs, List.all_eq_true]
    intro j hj
    obtain ⟨j0, _, rfl⟩ := List.mem_map.mp hj
    simp [hstat j0]
  · rw [reset_stuck_auto_jobs]
    simp only [List.map_map]
    refine List.map_congr_left fun j _ => ?_
    by_cases h : j.status = (r"processing")
    · simp [h]
    · simp [h]
  · rw [reset_stuck_auto_jobs, zip_self_map, List.all_eq_true]
    intro p hp
    obtain ⟨j, _, rfl⟩ := List.mem_map.mp hp
    by_cases h : j.status = (r"processing")
    · simp [h]
    · simp [h]
  · rw [reset_stuck_auto_jobs, reset_stuck_auto_jobs]
    simp only [Prod.mk.injEq]
    constructor
    · rw [List.length_eq_zero, List.filter_eq_nil_iff]
      intro j hj
      obtain ⟨j0, _, rfl⟩ := List.mem_map.mp hj
      simp [hstat j0]
    · congr 1
      simp only [List.map_map]
      refine List.map_congr_left fun j _ => ?_
      simp only [Function.comp]
      rw [if_neg (by simpa using (hstat j))]

/-! ### C8: rate/ETA estimation -/

/-- The first-match scan of `findRatePair` equals filtering the candidate
pairs and taking the head. -/
theorem findRatePair_eq (lt : ℚ) (lc : Int) (l : List (ℚ × Int)) :
    findRatePair lt lc l =
      (match (l.filter fun s =>
          decide (0 < lc - s.2) && decide (1 ≤ lt - s.1)).head? with
       | none => 0
       | some (pt, pc) => (((lc - pc : Int) : ℚ) / (lt - pt)) * 60) := by
  induction l with
  | nil => rfl
  | cons s rest ih =>
    obtain ⟨pt, pc⟩ := s
    rw [findRatePair]
    by_cases h : 0 < lc - pc ∧ 1 ≤ lt - pt
    · rw [if_pos h, List.filter_cons_of_pos (by simp [h.1, h.2])]
      rfl
    · rw [if_neg h, List.filter_cons_of_neg (by simpa [Decidable.not_and_iff_or_not] using h), ih]

/-- C8 counterexample.  First input: in the history
`[(0,0), (9,7), (10,5)]` the most recent sample pair whose time delta meets
the 1-second threshold is `((9,7), (10,5))`, for which the claimed formula
`(Δcompleted/Δtime) × 60` gives `-120`; the code skips that pair (its
completed-delta is not positive) and instead computes `30` from the pair
`((0,0), (10,5))`.  Second input: with history `[(0,0), (60,10)]` and
`queued = processing = 0` the rate is `10 > 0` yet the ETA is undefined —
the code also requires `remaining > 0`, where the claim says the ETA is
undefined only when the rate is not positive. -/
theorem compute_rate_eta_claim_counterexample :
    computeRateEta [(0, 0), (9, 7), (10, 5)] 0 0 = (30, none) ∧
    claimRate [(0, 0), (9, 7), (10, 5)] = -120 ∧
    (30 : ℚ) ≠ -120 ∧
    computeRateEta [(0, 0), (60, 10)] 0 0 = (10, none) ∧
    (0 : ℚ) < 10 := by
  refine ⟨?_, ?_, by norm_num, ?_, by norm_num⟩
  · norm_num [computeRateEta, findRatePair]
  · norm_num [claimRate]
  · norm_num [computeRateEta, findRatePair]

/-- C8 (amended): the estimator's rate is `(Δcompleted/Δtime) × 60` taken
from the most recent sample pair whose time delta is at least the 1-second
threshold *and* whose completed-delta is positive; queued is
`max(total − completed − processing − errors, 0)`; remaining is
`max(queued + processing, 0)`; the ETA `remaining/rate × 60` is produced
exactly when both the rate and remaining are positive, and is undefined
otherwise.  For the samples `(t=0,c=0), (t=60s,c=10)` with 30 queued and
none processing, the rate is 10 per minute and the ETA 180 seconds. -/
theorem compute_rate_eta_spec (history : List (ℚ × Int))
    (queued processing : Int) :
    (computeRateEta history queued processing).1 = rateFromHistory history ∧
    (computeRateEta history queued processing).2 =
      (if 0 < rateFromHistory history ∧ 0 < max (queued + processing) 0 then
        some ((((max (queued + processing) 0 : Int) : ℚ) /
          rateFromHistory history) * 60)
      else none) ∧
    refreshQueued 40 10 3 2 = 25 ∧
    computeRateEta [(0, 0), (60, 10)] 30 0 = (10, some 180) := by
  refine ⟨?_, ?_, by norm_num [refreshQueued], ?_⟩
  · rw [computeRateEta, rateFromHistory]
    cases h : history.getLast? with
    | none => rfl
    | some s =>
      obtain ⟨lt, lc⟩ := s
      simp only [findRatePair_eq]
      by_cases hc : 0 < (match (history.dropLast.reverse.filter fun s =>
          decide (0 < lc - s.2) && decide (1 ≤ lt - s.1)).head? with
         | none => (0 : ℚ)
         | some (pt, pc) => (((lc - pc : Int) : ℚ) / (lt - pt)) * 60) ∧
          0 < max (queued + processing) 0
      · rw [if_pos hc]
      · rw [if_neg hc]
  · rw [computeRateEta, rateFromHistory]
    cases h : history.getLast? with
    | none => simp
    | some s =>
      obtain ⟨lt, lc⟩ := s
      simp only [findRatePair_eq]
      by_cases hc : 0 < (match (history.dropLast.reverse.filter fun s =>
          decide (0 < lc - s.2) && decide (1 ≤ lt - s.1)).head? with
         | none => (0 : ℚ)
         | some (pt, pc) => (((lc - pc : Int) : ℚ) / (lt - pt)) * 60) ∧
          0 < max (queued + processing) 0
      · rw [if_pos hc, if_pos hc]
      · rw [if_neg hc, if_neg hc]
  · norm_num [computeRateEta, findRatePair]

/-! ### C10: `upsert_image_record` with an empty tag sequence -/

/-- C10: calling `upsert_image_record` for an existing image (`find?` on the
unique path column succeeds) with an empty tag sequence deletes every tag
row of that image — whatever its source or kind, so auto-sourced and rating
rows included — while tag rows of other images survive; the image row
itself is still updated (`changed` is reported `true`, and the updated row
is present while rows with other paths are untouched and the row count is
preserved); the `auto_tag_jobs` table is untouched. -/
theorem upsert_empty_tags_spec (db : BooruDb)
    (relPath name : String) (mtime : ℚ) (size : Int)
    (width height : Option Int)
    (seed model source description metadataJson : Option String)
    (img : ImageRow)
    (h : db.images.find? (fun i => i.path = relPath) = some img) :
    (upsert_image_record db relPath name mtime size width height seed model
        source description metadataJson []).1.1 = img.id ∧
    (upsert_image_record db relPath name mtime size width height seed model
        source description metadataJson []).1.2 = true ∧
    (∀ t ∈ (upsert_image_record db relPath name mtime size width height seed
        model source description metadataJson []).2.tags,
      t.imageId ≠ img.id) ∧
    (∀ t ∈ db.tags, t.imageId ≠ img.id →
      t ∈ (upsert_image_record db relPath name mtime size width height seed
        model source description metadataJson []).2.tags) ∧
    (∀ t ∈ (upsert_image_record db relPath name mtime size width height seed
        model source description metadataJson []).2.tags, t ∈ db.tags) ∧
    ({ img with name := name, mtime := mtime, size := size, width := width
                height := height, seed := seed, model := model
                source := source, description := description
                metadataJson := metadataJson } ∈
      (upsert_image_record db relPath name mtime size width height seed model
        source description metadataJson []).2.images) ∧
    (∀ i ∈ db.images, ¬i.path = relPath →
      i ∈ (upsert_image_record db relPath name mtime size width height seed
        model source description metadataJson []).2.images) ∧
    (upsert_image_record db relPath name mtime size width height seed model
        source description metadataJson []).2.images.length =
      db.images.length ∧
    (upsert_image_record db relPath name mtime size width height seed model
        source description metadataJson []).2.autoJobs = db.autoJobs := by
  have hmem : img ∈ db.images := List.mem_of_find?_eq_some h
  have hpath : img.path = relPath := by simpa using List.find?_some h
  unfold upsert_image_record
  rw [h]
  show _ ∧ decide (0 < (db.images.filter fun i => i.path = relPath).length) =
      true ∧ _
  refine ⟨rfl, ?_, ?_, ?_, ?_, ?_, ?_, ?_, rfl⟩
  · simp only [decide_eq_true_eq]
    rw [List.length_pos, Ne, List.filter_eq_nil_iff]
    push_neg
    exact ⟨img, hmem, by simp [hpath]⟩
  · intro t ht
    have := List.of_mem_filter ht
    simpa using this
  · intro t ht hne
    exact List.mem_filter.mpr ⟨ht, by simpa using hne⟩
  · intro t ht
    exact List.mem_of_mem_filter ht
  · refine List.mem_map.mpr ⟨img, hmem, ?_⟩
    rw [if_pos hpath]
  · intro i hi hne
    exact List.mem_map.mpr ⟨i, hi, by rw [if_neg hne]⟩
  · exact List.length_map ..

/-- Closed instance of `upsert_empty_tags_spec` on `dbForUpsert`: image 1
carries embedded, auto and dbrating tag rows; after the upsert with an empty
tag sequence, `changed` is `true` and no tag row of image 1 survives. -/
theorem upsert_empty_tags_instance :
    (upsert_image_record dbForUpsert (r"a.png") (r"renamed.png") 5 2 none none
        none none none none none []).1.2 = true ∧
    ∀ t ∈ (upsert_image_record dbForUpsert (r"a.png") (r"renamed.png") 5 2
        none none none none none none none []).2.tags, t.imageId ≠ 1 :=
  ⟨(upsert_empty_tags_spec dbForUpsert (r"a.png") (r"renamed.png") 5 2 none
      none none none none none none (mkImg 1 (r"a.png")) (by decide)).2.1,
   (upsert_empty_tags_spec dbForUpsert (r"a.png") (r"renamed.png") 5 2 none
      none none none none none none (mkImg 1 (r"a.png")) (by decide)).2.2.1⟩

/-! ### C4: query-tokenizer scope prefixes -/

/-- C4 counterexample: `parse_query_tokens` does not recognize `rating:`,
`path:` or `in:`: each such term keeps its prefix inside the normalized text
and receives the `any` scope instead of a rating/path scope.  (Those three
prefixes are interpreted only by `autocomplete_tags` in search.py.) -/
theorem parse_query_tokens_rating_path_in_unscoped :
    parse_query_tokens (r"rating:safe") =
      [((r"rating:safe"), (r"any"), false)] ∧
    parse_query_tokens (r"path:foo") = [((r"path:foo"), (r"any"), false)] ∧
    parse_query_tokens (r"in:bar") = [((r"in:bar"), (r"any"), false)] ∧
    (r"any") ≠ (r"rating") ∧ (r"any") ≠ (r"path") := by
  refine ⟨by decide, by decide, by decide, by decide, by decide⟩

/-- A list whose members all fail `p` splits into one piece. -/
theorem splitAny_single {p : Char → Bool} {l : List Char}
    (h : ∀ c ∈ l, p c = false) : splitAny p l = [l] := by
  induction l with
  | nil => rfl
  | cons c cs ih =>
    rw [splitAny, if_neg (by simp [h c (by simp)]),
      ih fun d hd => h d (by simp [hd])]

/-- `startsWithL` accepts any extension of the pattern itself. -/
theorem startsWithL_self_append (x r : List Char) :
    startsWithL x (x ++ r) = true := by
  induction x with
  | nil => rfl
  | cons a t ih => simp [startsWithL, ih]

/-- Evaluation of `parseQueryTerm` on a term `pfx ++ rest` whose remainder
is stripped, non-empty, marker-free and normalizes to something non-empty:
shared scaffolding for the per-prefix statements below. -/
theorem parseQueryTerm_eval {rest : List Char}
    (hst : pyStripWs rest = rest) (hne : rest ≠ [])
    (hd1 : rest.head? ≠ some '-') (hd2 : rest.head? ≠ some '!') :
    exDashLoop rest false = (rest, false) := by
  cases rest with
  | nil => exact absurd rfl hne
  | cons c cs =>
    rw [exDashLoop, exDashLoopF, if_neg]
    intro hc
    rcases hc with hc | hc
    · exact hd1 (by simp [hc])
    · exact hd2 (by simp [hc])

/-- The whole-term strip is the identity on `pfx ++ rest` when the prefix
starts with a non-space character and `rest` is stripped and non-empty. -/
theorem pyStrip_prefix_append {pfx rest : List Char} {c0 : Char}
    (hp : pfx.head? = some c0) (hc0 : isPyWs c0 = false)
    (hst : pyStripWs rest = rest) (hne : rest ≠ []) :
    pyStripWs (pfx ++ rest) = pfx ++ rest := by
  refine pyStrip_eq_self ?_ ?_
  · intro c hc
    cases pfx with
    | nil => simp at hp
    | cons a t =>
      simp at hp
      subst hp
      simp at hc
      subst hc
      exact hc0
  · intro c hc
    rw [List.getLast?_append_of_ne_nil _ hne] at hc
    have : (pyStripWs rest).getLast? = some c := by rw [hst]; exact hc
    exact getLast?_pyStrip this

/-- A query consisting of one separator-free term tokenizes to the result of
processing that single term. -/
theorem parse_query_tokens_single {w : List Char} (hw : w ≠ [])
    (hsep : ∀ c ∈ w, (c = ',' || c = '\n') = false) :
    parse_query_tokens ⟨w⟩ = (parseQueryTerm w).toList := by
  rw [parse_query_tokens]
  rw [if_neg (by simpa using hw)]
  rw [show (⟨w⟩ : String).data = w from rfl, splitAny_single hsep]
  cases h : parseQueryTerm w with
  | none => simp [h]
  | some t => simp [h]

/-- `parseQueryTerm` on `char:` followed by a plain remainder. -/
theorem parseQueryTerm_char {rest : List Char}
    (hst : pyStripWs rest = rest) (hne : rest ≠ [])
    (hd1 : rest.head? ≠ some '-') (hd2 : rest.head? ≠ some '!')
    (hnorm : normalizeChars rest ≠ []) :
    parseQueryTerm ((r"char:").data ++ rest) =
      some (⟨normalizeChars rest⟩, (r"character"), false) := by
  have htok : pyStripWs ((r"char:").data ++ rest) = (r"char:").data ++ rest :=
    @pyStrip_prefix_append ((r"char:").data) rest 'c' (by decide) (by decide)
      hst hne
  have hdl : exDashLoop ((r"char:").data ++ rest) false =
      ((r"char:").data ++ rest, false) := by
    show exDashLoopF _ _ _ = _
    rw [show (r"char:").data ++ rest = 'c' :: ((r"har:").data ++ rest) from rfl]
    simp only [List.length_cons, exDashLoopF]
    rw [if_neg (by decide)]
  have hdl2 : exDashLoop rest false = (rest, false) :=
    parseQueryTerm_eval hst hne hd1 hd2
  unfold parseQueryTerm
  rw [htok, if_neg (by simp), hdl]
  dsimp only []
  rw [List.map_append]
  rw [show (r"char:").data.map asciiLower = (r"char:").data from by decide]
  rw [startsWithL_self_append]
  simp [hst, hdl2, hnorm]

/-- `parseQueryTerm` on `character:` followed by a plain remainder (the
earlier `char:` check does not fire: its fifth character is a colon where
`character:` has an `a`). -/
theorem parseQueryTerm_character {rest : List Char}
    (hst : pyStripWs rest = rest) (hne : rest ≠ [])
    (hd1 : rest.head? ≠ some '-') (hd2 : rest.head? ≠ some '!')
    (hnorm : normalizeChars rest ≠ []) :
    parseQueryTerm ((r"character:").data ++ rest) =
      some (⟨normalizeChars rest⟩, (r"character"), false) := by
  have htok : pyStripWs ((r"character:").data ++ rest) =
      (r"character:").data ++ rest :=
    @pyStrip_prefix_append ((r"character:").data) rest 'c' (by decide)
      (by decide) hst hne
  have hdl : exDashLoop ((r"character:").data ++ rest) false =
      ((r"character:").data ++ rest, false) := by
    show exDashLoopF _ _ _ = _
    rw [show (r"character:").data ++ rest =
      'c' :: ((r"haracter:").data ++ rest) from rfl]
    simp only [List.length_cons, exDashLoopF]
    rw [if_neg (by decide)]
  have hdl2 : exDashLoop rest false = (rest, false) :=
    parseQueryTerm_eval hst hne hd1 hd2
  unfold parseQueryTerm
  rw [htok, if_neg (by simp), hdl]
  dsimp only []
  rw [List.map_append]
  rw [show (r"character:").data.map asciiLower = (r"character:").data
    from by decide]
  rw [show startsWithL (r"char:").data
    ((r"character:").data ++ rest.map asciiLower) = false from rfl]
  rw [startsWithL_self_append]
  simp [hst, hdl2, hnorm]

/-- `parseQueryTerm` on `prompt:` followed by a plain remainder. -/
theorem parseQueryTerm_prompt {rest : List Char}
    (hst : pyStripWs rest = rest) (hne : rest ≠ [])
    (hd1 : rest.head? ≠ some '-') (hd2 : rest.head? ≠ some '!')
    (hnorm : normalizeChars rest ≠ []) :
    parseQueryTerm ((r"prompt:").data ++ rest) =
      some (⟨normalizeChars rest⟩, (r"prompt"), false) := by
  have htok : pyStripWs ((r"prompt:").data ++ rest) =
      (r"prompt:").data ++ rest :=
    @pyStrip_prefix_append ((r"prompt:").data) rest 'p' (by decide)
      (by decide) hst hne
  have hdl : exDashLoop ((r"prompt:").data ++ rest) false =
      ((r"prompt:").data ++ rest, false) := by
    show exDashLoopF _ _ _ = _
    rw [show (r"prompt:").data ++ rest =
      'p' :: ((r"rompt:").data ++ rest) from rfl]
    simp only [List.length_cons, exDashLoopF]
    rw [if_neg (by decide)]
  have hdl2 : exDashLoop rest false = (rest, false) :=
    parseQueryTerm_eval hst hne hd1 hd2
  unfold parseQueryTerm
  rw [htok, if_neg (by simp), hdl]
  dsimp only []
  rw [List.map_append]
  rw [show (r"prompt:").data.map asciiLower = (r"prompt:").data from by decide]
  rw [show startsWithL (r"char:").data
    ((r"prompt:").data ++ rest.map asciiLower) = false from rfl]
  rw [show startsWithL (r"character:").data
    ((r"prompt:").data ++ rest.map asciiLower) = false from rfl]
  rw [startsWithL_self_append]
  simp [hst, hdl2, hnorm]

/-- `parseQueryTerm` on `uc:` followed by a plain remainder. -/
theorem parseQueryTerm_uc {rest : List Char}
    (hst : pyStripWs rest = rest) (hne : rest ≠ [])
    (hd1 : rest.head? ≠ some '-') (hd2 : rest.head? ≠ some '!')
    (hnorm : normalizeChars rest ≠ []) :
    parseQueryTerm ((r"uc:").data ++ rest) =
      some (⟨normalizeChars rest⟩, (r"negative"), false) := by
  have htok : pyStripWs ((r"uc:").data ++ rest) = (r"uc:").data ++ rest :=
    @pyStrip_prefix_append ((r"uc:").data) rest 'u' (by decide) (by decide)
      hst hne
  have hdl : exDashLoop ((r"uc:").data ++ rest) false =
      ((r"uc:").data ++ rest, false) := by
    show exDashLoopF _ _ _ = _
    rw [show (r"uc:").data ++ rest = 'u' :: ((r"c:").data ++ rest) from rfl]
    simp only [List.length_cons, exDashLoopF]
    rw [if_neg (by decide)]
  have hdl2 : exDashLoop rest false = (rest, false) :=
    parseQueryTerm_eval hst hne hd1 hd2
  unfold parseQueryTerm
  rw [htok, if_neg (by simp), hdl]
  dsimp only []
  rw [List.map_append]
  rw [show (r"uc:").data.map asciiLower = (r"uc:").data from by decide]
  rw [show startsWithL (r"char:").data
    ((r"uc:").data ++ rest.map asciiLower) = false from rfl]
  rw [show startsWithL (r"character:").data
    ((r"uc:").data ++ rest.map asciiLower) = false from rfl]
  rw [show startsWithL (r"prompt:").data
    ((r"uc:").data ++ rest.map asciiLower) = false from rfl]
  rw [startsWithL_self_append]
  simp [hst, hdl2, hnorm]

/-- `parseQueryTerm` on a term carrying none of the recognized prefixes: the
`any` scope. -/
theorem parseQueryTerm_bare {rest : List Char}
    (hst : pyStripWs rest = rest) (hne : rest ≠ [])
    (hd1 : rest.head? ≠ some '-') (hd2 : rest.head? ≠ some '!')
    (hnorm : normalizeChars rest ≠ [])
    (hp1 : startsWithL (r"char:").data (rest.map asciiLower) = false)
    (hp2 : startsWithL (r"character:").data (rest.map asciiLower) = false)
    (hp3 : startsWithL (r"prompt:").data (rest.map asciiLower) = false)
    (hp4 : startsWithL (r"uc:").data (rest.map asciiLower) = false) :
    parseQueryTerm rest = some (⟨normalizeChars rest⟩, (r"any"), false) := by
  have hdl2 : exDashLoop rest false = (rest, false) :=
    parseQueryTerm_eval hst hne hd1 hd2
  unfold parseQueryTerm
  rw [hst, if_neg hne, hdl2]
  dsimp only []
  rw [hp1, hp2, hp3, hp4]
  simp [hdl2, hnorm]

/-- Reduction of `clauseIds` at the `any` scope. -/
theorem clauseIds_any_eq (db : BooruDb) (n : String) (e : Bool) :
    clauseIds db (n, (r"any"), e) =
      (db.tags.filter fun t =>
        (t.kind = (r"prompt") ∨ t.kind = (r"character")) ∧ t.norm = n).map
        (fun t => t.imageId) := by
  rw [clauseIds, if_neg (by simp), if_neg (by simp), if_neg (by simp),
    if_neg (by simp), if_pos rfl]

/-- Reduction of `clauseIds` at the `prompt` scope. -/
theorem clauseIds_prompt_eq (db : BooruDb) (n : String) (e : Bool) :
    clauseIds db (n, (r"prompt"), e) =
      (db.tags.filter fun t => t.kind = (r"prompt") ∧ t.norm = n).map
        (fun t => t.imageId) := by
  rw [clauseIds, if_neg (by simp), if_neg (by simp), if_neg (by simp),
    if_neg (by simp), if_neg (by simp)]

/-- Reduction of `clauseIds` at the `character` scope. -/
theorem clauseIds_character_eq (db : BooruDb) (n : String) (e : Bool) :
    clauseIds db (n, (r"character"), e) =
      (db.tags.filter fun t => t.kind = (r"character") ∧ t.norm = n).map
        (fun t => t.imageId) := by
  rw [clauseIds, if_neg (by simp), if_neg (by simp), if_neg (by simp),
    if_neg (by simp), if_neg (by simp)]

/-- Separator-freeness is preserved by prefixing a separator-free prefix. -/
theorem sep_free_append {pfx rest : List Char}
    (h1 : ∀ c ∈ pfx, (c = ',' || c = '\n') = false)
    (h2 : ∀ c ∈ rest, (c = ',' || c = '\n') = false) :
    ∀ c ∈ pfx ++ rest, (c = ',' || c = '\n') = false := by
  intro c hc
  rcases List.mem_append.mp hc with h | h
  · exact h1 c h
  · exact h2 c h

/-- C4 (amended): on a clean single-term remainder, the query tokenizer
recognizes exactly the prefixes `char:`/`character:` (character kind),
`prompt:` (prompt kind) and `uc:` (negative kind); a prefix-free term gets
the `any` scope, and `build_matched_cte` evaluates the `any` scope as the
union of the prompt and character kinds.  `rating:`, `path:` and `in:` are
not recognized by the tokenizer (see the counterexample theorem); they are
interpreted only by `autocomplete_tags`. -/
theorem parse_query_tokens_scopes {rest : List Char}
    (hst : pyStripWs rest = rest) (hne : rest ≠ [])
    (hd1 : rest.head? ≠ some '-') (hd2 : rest.head? ≠ some '!')
    (hnorm : normalizeChars rest ≠ [])
    (hsep : ∀ c ∈ rest, (c = ',' || c = '\n') = false)
    (hp1 : startsWithL (r"char:").data (rest.map asciiLower) = false)
    (hp2 : startsWithL (r"character:").data (rest.map asciiLower) = false)
    (hp3 : startsWithL (r"prompt:").data (rest.map asciiLower) = false)
    (hp4 : startsWithL (r"uc:").data (rest.map asciiLower) = false) :
    parse_query_tokens ⟨(r"char:").data ++ rest⟩ =
      [(⟨normalizeChars rest⟩, (r"character"), false)] ∧
    parse_query_tokens ⟨(r"character:").data ++ rest⟩ =
      [(⟨normalizeChars rest⟩, (r"character"), false)] ∧
    parse_query_tokens ⟨(r"prompt:").data ++ rest⟩ =
      [(⟨normalizeChars rest⟩, (r"prompt"), false)] ∧
    parse_query_tokens ⟨(r"uc:").data ++ rest⟩ =
      [(⟨normalizeChars rest⟩, (r"negative"), false)] ∧
    parse_query_tokens ⟨rest⟩ =
      [(⟨normalizeChars rest⟩, (r"any"), false)] ∧
    (∀ (db : BooruDb) (n : String) (i : Nat),
      i ∈ clauseIds db (n, (r"any"), false) ↔
        i ∈ clauseIds db (n, (r"prompt"), false) ∨
          i ∈ clauseIds db (n, (r"character"), false)) := by
  refine ⟨?_, ?_, ?_, ?_, ?_, ?_⟩
  · rw [parse_query_tokens_single (by simp)
      (sep_free_append (by decide) hsep)]
    rw [parseQueryTerm_char hst hne hd1 hd2 hnorm]
    rfl
  · rw [parse_query_tokens_single (by simp)
      (sep_free_append (by decide) hsep)]
    rw [parseQueryTerm_character hst hne hd1 hd2 hnorm]
    rfl
  · rw [parse_query_tokens_single (by simp)
      (sep_free_append (by decide) hsep)]
    rw [parseQueryTerm_prompt hst hne hd1 hd2 hnorm]
    rfl
  · rw [parse_query_tokens_single (by simp)
      (sep_free_append (by decide) hsep)]
    rw [parseQueryTerm_uc hst hne hd1 hd2 hnorm]
    rfl
  · rw [parse_query_tokens_single hne hsep]
    rw [parseQueryTerm_bare hst hne hd1 hd2 hnorm hp1 hp2 hp3 hp4]
    rfl
  · intro db n i
    rw [clauseIds_any_eq, clauseIds_prompt_eq, clauseIds_character_eq]
    constructor
    · intro h
      obtain ⟨t, ht, rfl⟩ := List.mem_map.mp h
      have hf := List.mem_filter.mp ht
      have hf2 := hf.2
      simp at hf2
      rcases hf2.1 with hk | hk
      · exact Or.inl (List.mem_map.mpr
          ⟨t, List.mem_filter.mpr ⟨hf.1, by simp [hk, hf2.2]⟩, rfl⟩)
      · exact Or.inr (List.mem_map.mpr
          ⟨t, List.mem_filter.mpr ⟨hf.1, by simp [hk, hf2.2]⟩, rfl⟩)
    · intro h
      rcases h with h | h
      · obtain ⟨t, ht, rfl⟩ := List.mem_map.mp h
        have hf := List.mem_filter.mp ht
        have hf2 := hf.2
        simp at hf2
        exact List.mem_map.mpr
          ⟨t, List.mem_filter.mpr ⟨hf.1, by simp [hf2.1, hf2.2]⟩, rfl⟩
      · obtain ⟨t, ht, rfl⟩ := List.mem_map.mp h
        have hf := List.mem_filter.mp ht
        have hf2 := hf.2
        simp at hf2
        exact List.mem_map.mpr
          ⟨t, List.mem_filter.mpr ⟨hf.1, by simp [hf2.1, hf2.2]⟩, rfl⟩

/-- Closed instance of `parse_query_tokens_scopes` at the remainder
`blue`. -/
theorem parse_query_tokens_scopes_instance :
    parse_query_tokens (r"char:blue") =
      [((r"blue"), (r"character"), false)] ∧
    parse_query_tokens (r"uc:blue") = [((r"blue"), (r"negative"), false)] ∧
    parse_query_tokens (r"blue") = [((r"blue"), (r"any"), false)] := by
  have h := @parse_query_tokens_scopes ((r"blue").data) (by decide)
    (by decide) (by decide) (by decide) (by decide)
    (by decide) (by decide) (by decide) (by decide) (by decide)
  exact ⟨h.1, h.2.2.2.1, h.2.2.2.2.1⟩

/-! ### C5: evaluation semantics of the compiled query -/

/-- `List.inter` membership, stated on the bare function. -/
theorem mem_list_inter {i : Nat} {a b : List Nat} :
    i ∈ a.inter b ↔ i ∈ a ∧ i ∈ b := by
  show i ∈ a ∩ b ↔ _
  exact List.mem_inter_iff

/-- `List.union` membership, stated on the bare function. -/
theorem mem_list_union {i : Nat} {a b : List Nat} :
    i ∈ a.union b ↔ i ∈ a ∨ i ∈ b := by
  show i ∈ a ∪ b ↔ _
  exact List.mem_union_iff

/-- Membership in a left fold of `INTERSECT` clauses. -/
theorem mem_foldl_inter (cs : List (List Nat)) (c : List Nat) (i : Nat) :
    i ∈ cs.foldl (fun a b => a.inter b) c ↔ i ∈ c ∧ ∀ x ∈ cs, i ∈ x := by
  induction cs generalizing c with
  | nil => simp
  | cons d cs ih =>
    rw [List.foldl_cons, ih, mem_list_inter]
    simp [List.forall_mem_cons, and_assoc]

/-- Membership in a left fold of `UNION` clauses. -/
theorem mem_foldl_union (cs : List (List Nat)) (c : List Nat) (i : Nat) :
    i ∈ cs.foldl (fun a b => a.union b) c ↔ i ∈ c ∨ ∃ x ∈ cs, i ∈ x := by
  induction cs generalizing c with
  | nil => simp
  | cons d cs ih =>
    rw [List.foldl_cons, ih, mem_list_union]
    simp [or_assoc]

/-- The positive-side guard of `matchedIds` holds iff the id lies in every
positive clause. -/
theorem match_inter_iff (cls : List (List Nat)) (i : Nat) :
    (match cls with
     | [] => true
     | c :: cs => decide (i ∈ cs.foldl (fun a b => a.inter b) c)) = true ↔
      ∀ x ∈ cls, i ∈ x := by
  cases cls with
  | nil => simp
  | cons c cs => simp [mem_foldl_inter, List.forall_mem_cons]

/-- The negative-side guard of `matchedIds` holds iff the id lies in no
negative clause. -/
theorem match_union_iff (cls : List (List Nat)) (i : Nat) :
    (match cls with
     | [] => true
     | c :: cs => !decide (i ∈ cs.foldl (fun a b => a.union b) c)) = true ↔
      ∀ x ∈ cls, i ∉ x := by
  cases cls with
  | nil => simp
  | cons c cs =>
    simp [mem_foldl_union, List.forall_mem_cons]

/-- C5: an image id is in the matched set iff the image exists and its id
lies in the clause set of every positive token and in the clause set of no
negative token; with no tokens the whole image set is selected; on the
example database, `masterpiece, -lowres` matches exactly the image tagged
only `masterpiece`, and the empty query matches both images. -/
theorem search_matched_semantics :
    (∀ (db : BooruDb) (tokens : List (String × String × Bool)) (i : Nat),
      i ∈ matchedIds db tokens ↔
        ((∃ img ∈ db.images, img.id = i) ∧
          (∀ t ∈ tokens, t.2.2 = false → i ∈ clauseIds db t) ∧
          (∀ t ∈ tokens, t.2.2 = true → i ∉ clauseIds db t))) ∧
    (∀ db : BooruDb, matchedIds db [] = db.images.map fun img => img.id) ∧
    matchedIds exSearchDb (tokens_from_query (r"masterpiece, -lowres")) =
      [1] ∧
    matchedIds exSearchDb (tokens_from_query (r"")) = [1, 2] := by
  refine ⟨?_, ?_, by decide, by decide⟩
  · intro db tokens i
    unfold matchedIds
    rw [List.mem_map]
    constructor
    · rintro ⟨img, hmem, rfl⟩
      have hf := List.mem_filter.mp hmem
      have hq := hf.2
      rw [Bool.and_eq_true] at hq
      refine ⟨⟨img, hf.1, rfl⟩, ?_, ?_⟩
      · have := (match_inter_iff ..).mp hq.1
        intro t ht hex
        refine this (clauseIds db t) (List.mem_map.mpr
          ⟨t, List.mem_filter.mpr ⟨ht, by simp [hex]⟩, rfl⟩)
      · have := (match_union_iff ..).mp hq.2
        intro t ht hex
        refine this (clauseIds db t) (List.mem_map.mpr
          ⟨t, List.mem_filter.mpr ⟨ht, by simp [hex]⟩, rfl⟩)
    · rintro ⟨⟨img, hmem, rfl⟩, hpos, hneg⟩
      refine ⟨img, List.mem_filter.mpr ⟨hmem, ?_⟩, rfl⟩
      rw [Bool.and_eq_true]
      constructor
      · rw [match_inter_iff]
        intro x hx
        obtain ⟨t, htf, rfl⟩ := List.mem_map.mp hx
        have ht := List.mem_filter.mp htf
        exact hpos t ht.1 (by simpa using ht.2)
      · rw [match_union_iff]
        intro x hx
        obtain ⟨t, htf, rfl⟩ := List.mem_map.mp hx
        have ht := List.mem_filter.mp htf
        exact hneg t ht.1 (by simpa using ht.2)
  · intro db
    simp [matchedIds]

/-! ### C7: wrapped-token parsing -/

theorem length_wrapPairs (o c : Char) (n : Nat) (t : List Char) :
    (wrapPairs o c n t).length = t.length + 2 * n := by
  induction n with
  | zero => rfl
  | succ n ih => simp [wrapPairs, ih]; omega

/-- A token that is stripped and does not start with a wrapper character is
left unchanged by the balanced-wrapper loop, whatever the fuel. -/
theorem stripBalancedF_plain {t : List Char} (hst : pyStripWs t = t)
    (hh1 : t.head? ≠ some '\x7b') (hh2 : t.head? ≠ some '[') :
    ∀ fuel s w, stripBalancedF fuel t s w = (t, s, w) := by
  intro fuel s w
  cases fuel with
  | zero => rw [stripBalancedF, hst]
  | succ f =>
    rw [stripBalancedF, hst]
    by_cases h2 : 2 ≤ t.length
    · rw [if_pos h2, if_neg (fun hc => hh1 hc.1), if_neg (fun hc => hh2 hc.1)]
    · rw [if_neg h2]

theorem pyStripWs_wrap {o c : Char} {inner : List Char}
    (ho : isPyWs o = false) (hc : isPyWs c = false) :
    pyStripWs (o :: (inner ++ [c])) = o :: (inner ++ [c]) := by
  refine pyStrip_eq_self ?_ ?_
  · intro d hd
    simp at hd
    rw [← hd]
    exact ho
  · intro d hd
    rw [show o :: (inner ++ [c]) = (o :: inner) ++ [c] from rfl,
      List.getLast?_concat] at hd
    simp at hd
    rw [← hd]
    exact hc

/-- The balanced-wrapper loop on `n` brace pairs around a plain token. -/
theorem stripBalancedF_braces {t : List Char} (hst : pyStripWs t = t)
    (hh1 : t.head? ≠ some '\x7b') (hh2 : t.head? ≠ some '[') :
    ∀ n fuel s w, n < fuel →
      stripBalancedF fuel (wrapPairs '\x7b' '\x7d' n t) s w = (t, s + n, w) := by
  intro n
  induction n with
  | zero =>
    intro fuel s w _
    simpa using stripBalancedF_plain hst hh1 hh2 fuel s w
  | succ n ih =>
    intro fuel s w hf
    cases fuel with
    | zero => omega
    | succ f =>
      rw [show wrapPairs '\x7b' '\x7d' (n + 1) t =
        '\x7b' :: (wrapPairs '\x7b' '\x7d' n t ++ ['\x7d']) from rfl]
      rw [stripBalancedF, pyStripWs_wrap (by decide) (by decide)]
      rw [if_pos (by simp)]
      rw [if_pos ⟨rfl, by
        rw [show '\x7b' :: (wrapPairs '\x7b' '\x7d' n t ++ ['\x7d']) =
          ('\x7b' :: wrapPairs '\x7b' '\x7d' n t) ++ ['\x7d'] from rfl,
          List.getLast?_concat]⟩]
      rw [show (('\x7b' :: (wrapPairs '\x7b' '\x7d' n t ++ ['\x7d'])).drop
          1).dropLast = wrapPairs '\x7b' '\x7d' n t from by
        simp [List.dropLast_concat]]
      rw [ih f (s + 1) w (by omega)]
      have hs : s + 1 + n = s + (n + 1) := by omega
      rw [hs]

/-- The balanced-wrapper loop on `n` square-bracket pairs around a plain
token. -/
theorem stripBalancedF_brackets {t : List Char} (hst : pyStripWs t = t)
    (hh1 : t.head? ≠ some '\x7b') (hh2 : t.head? ≠ some '[') :
    ∀ n fuel s w, n < fuel →
      stripBalancedF fuel (wrapPairs '[' ']' n t) s w = (t, s, w + n) := by
  intro n
  induction n with
  | zero =>
    intro fuel s w _
    simpa using stripBalancedF_plain hst hh1 hh2 fuel s w
  | succ n ih =>
    intro fuel s w hf
    cases fuel with
    | zero => omega
    | succ f =>
      rw [show wrapPairs '[' ']' (n + 1) t =
        '[' :: (wrapPairs '[' ']' n t ++ [']']) from rfl]
      rw [stripBalancedF, pyStripWs_wrap (by decide) (by decide)]
      rw [if_pos (by simp)]
      rw [if_neg (fun hc => by simp at hc)]
      rw [if_pos ⟨rfl, by
        rw [show '[' :: (wrapPairs '[' ']' n t ++ [']']) =
          ('[' :: wrapPairs '[' ']' n t) ++ [']'] from rfl,
          List.getLast?_concat]⟩]
      rw [show (('[' :: (wrapPairs '[' ']' n t ++ [']'])).drop
          1).dropLast = wrapPairs '[' ']' n t from by
        simp [List.dropLast_concat]]
      rw [ih f s (w + 1) (by omega)]
      have hs : w + 1 + n = w + (n + 1) := by omega
      rw [hs]

/-- `_consume_leading_wrappers` is the identity (with zero counters) on a
token whose first character is no wrapper and no whitespace. -/
theorem consumeLeading_plain {t : List Char}
    (hh : ∀ c, t.head? = some c →
      c ≠ '\x7b' ∧ c ≠ '[' ∧ isPyWs c = false) :
    consumeLeading t 0 0 = (t, 0, 0) := by
  cases t with
  | nil => rfl
  | cons c cs =>
    have h := hh c rfl
    rw [consumeLeading, if_neg h.1, if_neg h.2.1, if_neg (by simp [h.2.2])]

/-- `_consume_trailing_wrappers` is the identity on a token whose last
character is no closing wrapper and no whitespace. -/
theorem consumeTrailing_plain {t : List Char}
    (hl : ∀ c, t.getLast? = some c →
      c ≠ '\x7d' ∧ c ≠ ']' ∧ isPyWs c = false) :
    consumeTrailing t = t := by
  rw [consumeTrailing]
  cases hrev : t.reverse with
  | nil =>
    have : t = [] := by simpa using congrArg List.reverse hrev
    simp [this, consumeTrailingRev]
  | cons c cs =>
    have hc : t.getLast? = some c := by
      rw [← List.head?_reverse, hrev]
      rfl
    have h := hl c hc
    rw [consumeTrailingRev, if_neg (by simp [h.1, h.2.1]),
      if_neg (by simp [h.2.2]), ← hrev, List.reverse_reverse]

/-- `splitPromptGo` on comma-free input accumulates everything into one
(stripped) token. -/
theorem splitPromptGo_noComma {l : List Char} (h : ∀ c ∈ l, c ≠ ',') :
    ∀ buf brace bracket, splitPromptGo l buf brace bracket =
      (if pyStripWs (buf ++ l) = [] then [] else [pyStripWs (buf ++ l)]) := by
  induction l with
  | nil =>
    intro buf brace bracket
    rw [splitPromptGo]
    simp
  | cons c rest ih =>
    intro buf brace bracket
    have hrest : ∀ d ∈ rest, d ≠ ',' := fun d hd => h d (by simp [hd])
    rw [splitPromptGo, if_neg (by
      rintro ⟨hc, -⟩
      exact h c (by simp) hc)]
    have hshift : ∀ br bk, splitPromptGo rest (buf ++ [c]) br bk =
        (if pyStripWs (buf ++ c :: rest) = [] then []
         else [pyStripWs (buf ++ c :: rest)]) := by
      intro br bk
      rw [ih hrest, List.append_assoc]
      rfl
    split_ifs <;> rw [hshift] <;> simp_all

/-- `split_prompt` on a comma-free, stripped, non-empty token yields that
single token. -/
theorem split_prompt_noComma {t : List Char} (h : ∀ c ∈ t, c ≠ ',')
    (hst : pyStripWs t = t) (hne : t ≠ []) : split_prompt t = [t] := by
  rw [split_prompt, splitPromptGo_noComma h, List.nil_append, hst,
    if_neg hne]

/-- The remainder left by the number part of the weighted-syntax regex is a
sublist of its input. -/
theorem numPart_rest_sublist (l : List Char) :
    List.Sublist (numPart l).2 l := by
  rw [numPart]
  have hdw : List.Sublist (l.dropWhile Char.isDigit) l :=
    List.dropWhile_sublist ..
  split
  · rename_i r2 heq
    dsimp only []
    split
    · exact hdw
    · refine List.Sublist.trans (List.dropWhile_sublist ..) ?_
      refine List.Sublist.trans ?_ hdw
      rw [heq]
      exact List.sublist_cons_self ..
  · exact hdw

/-- On a colon-free token the weighted-syntax regex does not match. -/
theorem pyWeightedMatch_none {t : List Char} (h : ∀ c ∈ t, c ≠ ':') :
    pyWeightedMatch t = none := by
  have hX : List.Sublist (match t with
      | c :: cs => if c = '+' ∨ c = '-' then (([c] : List Char), cs)
                   else ([], t)
      | [] => ([], [])).2 t := by
    split
    · split
      · exact List.sublist_cons_self ..
      · exact List.Sublist.refl _
    · exact List.Sublist.refl _
  unfold pyWeightedMatch
  dsimp only []
  split
  · rename_i rest3 heq
    exfalso
    have hmem : ':' ∈ t := by
      have h1 : (':' : Char) ∈ (numPart (match t with
          | c :: cs => if c = '+' ∨ c = '-' then (([c] : List Char), cs)
                       else ([], t)
          | [] => ([], [])).2).2.dropWhile isPyWs := by
        rw [heq]
        simp
      have h2 := (List.dropWhile_sublist ..).subset h1
      have h3 := (numPart_rest_sublist ..).subset h2
      exact hX.subset h3
    exact h ':' hmem rfl
  · rfl

/-- Evaluation of `_parse_prompt_token` on a plain token wrapped in `n ≥ 1`
balanced brace pairs. -/
theorem parsePromptTokenF_braces {t : List Char} {n : Nat}
    (hst : pyStripWs t = t) (hne : t ≠ [])
    (hch : ∀ c ∈ t, c ≠ '\x7b' ∧ c ≠ '\x7d' ∧ c ≠ '[' ∧ c ≠ ']' ∧
      c ≠ ',' ∧ c ≠ ':')
    (hnorm : normalizeChars t ≠ []) (hn : 1 ≤ n) :
    ∀ fuel, parsePromptTokenF (fuel + 1)
      (wrapPairs '\x7b' '\x7d' n t) (r"prompt") 1 none =
      [{ tag := ⟨t⟩, norm := ⟨normalizeChars t⟩, kind := (r"prompt"),
         emphasis := (r"strong"), weight := (11 / 10 : ℚ) ^ n,
         raw := ⟨wrapPairs '\x7b' '\x7d' n t⟩ }] := by
  intro fuel
  have hhead : ∀ c, t.head? = some c →
      c ≠ '\x7b' ∧ c ≠ '[' ∧ isPyWs c = false := by
    intro c hc
    have hm := mem_of_head? hc
    refine ⟨(hch c hm).1, (hch c hm).2.2.1, ?_⟩
    exact head?_pyStrip (p := isPyWs) (by rw [show pyStrip isPyWs t = t from hst]; exact hc)
  have hlast : ∀ c, t.getLast? = some c →
      c ≠ '\x7d' ∧ c ≠ ']' ∧ isPyWs c = false := by
    intro c hc
    have hm := mem_of_getLast? hc
    refine ⟨(hch c hm).2.1, (hch c hm).2.2.2.1, ?_⟩
    exact getLast?_pyStrip (p := isPyWs) (by rw [show pyStrip isPyWs t = t from hst]; exact hc)
  have hh1 : t.head? ≠ some '\x7b' := by
    intro hc
    exact (hhead _ hc).1 rfl
  have hh2 : t.head? ≠ some '[' := by
    intro hc
    exact (hhead _ hc).2.1 rfl
  obtain ⟨m, rfl⟩ : ∃ m, n = m + 1 := ⟨n - 1, by omega⟩
  have hshape : wrapPairs '\x7b' '\x7d' (m + 1) t =
      '\x7b' :: (wrapPairs '\x7b' '\x7d' m t ++ ['\x7d']) := rfl
  have hpsw : pyStripWs (wrapPairs '\x7b' '\x7d' (m + 1) t) =
      wrapPairs '\x7b' '\x7d' (m + 1) t := by
    rw [hshape]
    exact pyStripWs_wrap (by decide) (by decide)
  have hb : stripBalanced (wrapPairs '\x7b' '\x7d' (m + 1) t) 0 0 =
      (t, m + 1, 0) := by
    rw [stripBalanced]
    rw [stripBalancedF_braces hst hh1 hh2 (m + 1) _ 0 0
      (by rw [length_wrapPairs]; omega)]
    simp
  have hcl : consumeLeading t 0 0 = (t, 0, 0) := consumeLeading_plain hhead
  have hct : consumeTrailing t = t := consumeTrailing_plain hlast
  have hsp : split_prompt t = [t] :=
    split_prompt_noComma (fun c hc => (hch c hc).2.2.2.2.1) hst hne
  have hwm : pyWeightedMatch t = none :=
    pyWeightedMatch_none fun c hc => (hch c hc).2.2.2.2.2
  rw [parsePromptTokenF]
  rw [hpsw, if_neg (by rw [hshape]; simp)]
  rw [hb]
  dsimp only []
  rw [hcl]
  dsimp only []
  rw [hct, if_neg hne, hsp]
  rw [if_neg (by simp)]
  rw [hwm]
  dsimp only []
  rw [if_neg hne, if_neg hnorm]
  rw [if_pos ⟨by omega, rfl⟩]
  rw [hst]
  simp

/-- Evaluation of `_parse_prompt_token` on a plain token wrapped in `n ≥ 1`
balanced square-bracket pairs. -/
theorem parsePromptTokenF_brackets {t : List Char} {n : Nat}
    (hst : pyStripWs t = t) (hne : t ≠ [])
    (hch : ∀ c ∈ t, c ≠ '\x7b' ∧ c ≠ '\x7d' ∧ c ≠ '[' ∧ c ≠ ']' ∧
      c ≠ ',' ∧ c ≠ ':')
    (hnorm : normalizeChars t ≠ []) (hn : 1 ≤ n) :
    ∀ fuel, parsePromptTokenF (fuel + 1)
      (wrapPairs '[' ']' n t) (r"prompt") 1 none =
      [{ tag := ⟨t⟩, norm := ⟨normalizeChars t⟩, kind := (r"prompt"),
         emphasis := (r"weak"), weight := (9 / 10 : ℚ) ^ n,
         raw := ⟨wrapPairs '[' ']' n t⟩ }] := by
  intro fuel
  have hhead : ∀ c, t.head? = some c →
      c ≠ '\x7b' ∧ c ≠ '[' ∧ isPyWs c = false := by
    intro c hc
    have hm := mem_of_head? hc
    refine ⟨(hch c hm).1, (hch c hm).2.2.1, ?_⟩
    exact head?_pyStrip (p := isPyWs) (by rw [show pyStrip isPyWs t = t from hst]; exact hc)
  have hlast : ∀ c, t.getLast? = some c →
      c ≠ '\x7d' ∧ c ≠ ']' ∧ isPyWs c = false := by
    intro c hc
    have hm := mem_of_getLast? hc
    refine ⟨(hch c hm).2.1, (hch c hm).2.2.2.1, ?_⟩
    exact getLast?_pyStrip (p := isPyWs) (by rw [show pyStrip isPyWs t = t from hst]; exact hc)
  have hh1 : t.head? ≠ some '\x7b' := by
    intro hc
    exact (hhead _ hc).1 rfl
  have hh2 : t.head? ≠ some '[' := by
    intro hc
    exact (hhead _ hc).2.1 rfl
  obtain ⟨m, rfl⟩ : ∃ m, n = m + 1 := ⟨n - 1, by omega⟩
  have hshape : wrapPairs '[' ']' (m + 1) t =
      '[' :: (wrapPairs '[' ']' m t ++ [']']) := rfl
  have hpsw : pyStripWs (wrapPairs '[' ']' (m + 1) t) =
      wrapPairs '[' ']' (m + 1) t := by
    rw [hshape]
    exact pyStripWs_wrap (by decide) (by decide)
  have hb : stripBalanced (wrapPairs '[' ']' (m + 1) t) 0 0 =
      (t, 0, m + 1) := by
    rw [stripBalanced]
    rw [stripBalancedF_brackets hst hh1 hh2 (m + 1) _ 0 0
      (by rw [length_wrapPairs]; omega)]
    simp
  have hcl : consumeLeading t 0 0 = (t, 0, 0) := consumeLeading_plain hhead
  have hct : consumeTrailing t = t := consumeTrailing_plain hlast
  have hsp : split_prompt t = [t] :=
    split_prompt_noComma (fun c hc => (hch c hc).2.2.2.2.1) hst hne
  have hwm : pyWeightedMatch t = none :=
    pyWeightedMatch_none fun c hc => (hch c hc).2.2.2.2.2
  rw [parsePromptTokenF]
  rw [hpsw, if_neg (by rw [hshape]; simp)]
  rw [hb]
  dsimp only []
  rw [hcl]
  dsimp only []
  rw [hct, if_neg hne, hsp]
  rw [if_neg (by simp)]
  rw [hwm]
  dsimp only []
  rw [if_neg hne, if_neg hnorm]
  rw [if_neg (by rintro ⟨-, h⟩; omega), if_pos ⟨by omega, rfl⟩]
  rw [hst]
  simp

/-- Characters of a wrapped token are the brackets or characters of the
token. -/
theorem mem_wrapPairs {o cl : Char} {n : Nat} {t : List Char} {c : Char}
    (h : c ∈ wrapPairs o cl n t) : c = o ∨ c = cl ∨ c ∈ t := by
  induction n with
  | zero => exact Or.inr (Or.inr h)
  | succ n ih =>
    rw [wrapPairs] at h
    rcases List.mem_cons.mp h with h' | h'
    · exact Or.inl h'
    · rcases List.mem_append.mp h' with h'' | h''
      · exact ih h''
      · simp at h''
        exact Or.inr (Or.inl h'')

/-- C7 (amended): for every `n ≥ 1` and every plain single token (stripped,
non-empty, free of brackets, commas and colons, with non-empty
normalization), parsing the token wrapped in `n` balanced `{}` pairs yields
exactly one record, with weight `(11/10)^n` and emphasis `strong`, and
parsing it wrapped in `n` balanced `[]` pairs yields exactly one record,
with weight `(9/10)^n` and emphasis `weak`.  (At `n = 0` the weight is
`1.1^0 = 1` but the emphasis is `normal`, not `strong`/`weak` — see the
counterexample theorem.) -/
theorem parse_prompt_wrapped_spec {t : List Char} {n : Nat}
    (hst : pyStripWs t = t) (hne : t ≠ [])
    (hch : ∀ c ∈ t, c ≠ '\x7b' ∧ c ≠ '\x7d' ∧ c ≠ '[' ∧ c ≠ ']' ∧
      c ≠ ',' ∧ c ≠ ':')
    (hnorm : normalizeChars t ≠ []) (hn : 1 ≤ n) :
    parse_prompt ⟨wrapPairs '\x7b' '\x7d' n t⟩ (r"prompt") =
      [{ tag := ⟨t⟩, norm := ⟨normalizeChars t⟩, kind := (r"prompt"),
         emphasis := (r"strong"), weight := (11 / 10 : ℚ) ^ n,
         raw := ⟨wrapPairs '\x7b' '\x7d' n t⟩ }] ∧
    parse_prompt ⟨wrapPairs '[' ']' n t⟩ (r"prompt") =
      [{ tag := ⟨t⟩, norm := ⟨normalizeChars t⟩, kind := (r"prompt"),
         emphasis := (r"weak"), weight := (9 / 10 : ℚ) ^ n,
         raw := ⟨wrapPairs '[' ']' n t⟩ }] := by
  obtain ⟨m, rfl⟩ : ∃ m, n = m + 1 := ⟨n - 1, by omega⟩
  constructor
  · rw [parse_prompt]
    rw [if_neg (by show ¬wrapPairs '\x7b' '\x7d' (m + 1) t = []; simp [wrapPairs])]
    rw [show (⟨wrapPairs '\x7b' '\x7d' (m + 1) t⟩ : String).data =
      wrapPairs '\x7b' '\x7d' (m + 1) t from rfl]
    rw [split_prompt_noComma
      (fun c hc => by
        rcases mem_wrapPairs hc with h | h | h
        · simp [h]
        · simp [h]
        · exact (hch c h).2.2.2.2.1)
      (by
        rw [show wrapPairs '\x7b' '\x7d' (m + 1) t =
          '\x7b' :: (wrapPairs '\x7b' '\x7d' m t ++ ['\x7d']) from rfl]
        exact pyStripWs_wrap (by decide) (by decide))
      (by simp [wrapPairs])]
    rw [List.map_cons, List.map_nil]
    rw [parsePromptTokenF_braces hst hne hch hnorm (by omega)]
    simp [dedupInsert]
  · rw [parse_prompt]
    rw [if_neg (by show ¬wrapPairs '[' ']' (m + 1) t = []; simp [wrapPairs])]
    rw [show (⟨wrapPairs '[' ']' (m + 1) t⟩ : String).data =
      wrapPairs '[' ']' (m + 1) t from rfl]
    rw [split_prompt_noComma
      (fun c hc => by
        rcases mem_wrapPairs hc with h | h | h
        · simp [h]
        · simp [h]
        · exact (hch c h).2.2.2.2.1)
      (by
        rw [show wrapPairs '[' ']' (m + 1) t =
          '[' :: (wrapPairs '[' ']' m t ++ [']']) from rfl]
        exact pyStripWs_wrap (by decide) (by decide))
      (by simp [wrapPairs])]
    rw [List.map_cons, List.map_nil]
    rw [parsePromptTokenF_brackets hst hne hch hnorm (by omega)]
    simp [dedupInsert]

/-- C7 counterexample: at `n = 0` (no wrapping at all) the parser emits
emphasis `normal`, not `strong` (or `weak`) as the claim's "for all n ≥ 0"
would require. -/
theorem parse_prompt_unwrapped_normal :
    (parse_prompt (r"cute") (r"prompt")).map (fun rec => rec.emphasis) =
      [(r"normal")] ∧
    (r"normal") ≠ (r"strong") ∧ (r"normal") ≠ (r"weak") := by
  refine ⟨by decide, by decide, by decide⟩

/-- Closed instance of `parse_prompt_wrapped_spec` at `n = 2` and the token
`cute` (the doubled-brace/bracket examples of the spec's test section). -/
theorem parse_prompt_wrapped_instance :
    parse_prompt (r"{{cute}}") (r"prompt") =
      [{ tag := (r"cute"), norm := (r"cute"), kind := (r"prompt"),
         emphasis := (r"strong"), weight := (11 / 10 : ℚ) ^ 2,
         raw := (r"{{cute}}") }] ∧
    parse_prompt (r"[[cute]]") (r"prompt") =
      [{ tag := (r"cute"), norm := (r"cute"), kind := (r"prompt"),
         emphasis := (r"weak"), weight := (9 / 10 : ℚ) ^ 2,
         raw := (r"[[cute]]") }] := by
  have h := @parse_prompt_wrapped_spec ((r"cute").data) 2 (by decide)
    (by decide) (by decide) (by decide) (by decide)
  exact ⟨h.1, h.2⟩
